import Mathlib

/-!
# Verification of the ROCr debug agent core

A shallow embedding, in Lean 4, of the core algorithms of the GPU debug
agent (`src/debug_agent.cpp` and `src/code_object.cpp`): the resume
exception-mask computation, the stop-all-wavefronts convergence loop, the
code-object symbol/line-map queries, the URI read phase of
`code_object_t::open`, the disassembly anchor computation, the report
formatter's lock and code-object selection, and the controller/worker
synchronisation protocol.

Machine integers are modelled as `Nat`; the agent's address and mask
arithmetic never underflows in the situations the theorems quantify over
(where C++ unsigned subtraction could wrap, the theorems carry explicit
bounds that rule the wrap out, mirroring the invariants of the source).
Constants taken from the external `amd-dbgapi` header (stop-reason and
exception bit values) are distinct single-bit values, as in the header.
-/

namespace RocrDebugAgent

/-! ## Stop-reason and exception constants (external `amd-dbgapi` contract)

`amd_dbgapi_wave_stop_reasons_t` is a bitmask enum; every named reason other
than `NONE` is a distinct single bit.  `amd_dbgapi_exceptions_t` likewise. -/

def STOP_NONE : Nat := 0
def STOP_BREAKPOINT : Nat := 1
def STOP_WATCHPOINT : Nat := 2
def STOP_SINGLE_STEP : Nat := 4
def STOP_FP_INPUT_DENORMAL : Nat := 8
def STOP_FP_DIVIDE_BY_0 : Nat := 16
def STOP_FP_OVERFLOW : Nat := 32
def STOP_FP_UNDERFLOW : Nat := 64
def STOP_FP_INEXACT : Nat := 128
def STOP_FP_INVALID_OPERATION : Nat := 256
def STOP_INT_DIVIDE_BY_0 : Nat := 512
def STOP_DEBUG_TRAP : Nat := 1024
def STOP_ASSERT_TRAP : Nat := 2048
def STOP_TRAP : Nat := 4096
def STOP_MEMORY_VIOLATION : Nat := 8192
def STOP_ADDRESS_ERROR : Nat := 16384
def STOP_ILLEGAL_INSTRUCTION : Nat := 32768
def STOP_ECC_ERROR : Nat := 65536
def STOP_FATAL_HALT : Nat := 131072

def EXC_NONE : Nat := 0
def EXC_WAVE_ABORT : Nat := 1
def EXC_WAVE_TRAP : Nat := 2
def EXC_WAVE_MATH_ERROR : Nat := 4
def EXC_WAVE_ILLEGAL_INSTRUCTION : Nat := 8
def EXC_WAVE_MEMORY_VIOLATION : Nat := 16
def EXC_WAVE_ADDRESS_ERROR : Nat := 32

/-! ## Resume exception mask (`process_dbgapi_events`, debug_agent.cpp:929-993)

The C++ loop extracts one bit of `stop_reason_bits` per iteration, but the
`switch` statement dispatches on the unmodified `stop_reason` variable, not
on the extracted `one_bit`.  The switch has no `default` label, so a value
that matches no single case label contributes nothing.  We embed the switch
body as `exceptionForReason` and the do/while loop as `resumeExceptionsGo`
(fuel-indexed; the bit count strictly decreases, so fuel `bits + 1` is
always enough, see `resumeExceptionsGo_fuel`). -/

/-- The `switch (stop_reason)` body at debug_agent.cpp:936-988: the exception
bits OR-ed into `resume_exceptions` when the scrutinee equals the given case
label; a scrutinee matching no label contributes nothing (no `default`). -/
def exceptionForReason (r : Nat) : Nat :=
  if r = STOP_NONE ∨ r = STOP_DEBUG_TRAP then EXC_NONE
  else if r = STOP_BREAKPOINT ∨ r = STOP_WATCHPOINT ∨ r = STOP_ASSERT_TRAP
      ∨ r = STOP_TRAP then EXC_WAVE_TRAP
  else if r = STOP_SINGLE_STEP then EXC_NONE
  else if r = STOP_FP_INPUT_DENORMAL ∨ r = STOP_FP_DIVIDE_BY_0
      ∨ r = STOP_FP_OVERFLOW ∨ r = STOP_FP_UNDERFLOW ∨ r = STOP_FP_INEXACT
      ∨ r = STOP_FP_INVALID_OPERATION ∨ r = STOP_INT_DIVIDE_BY_0 then
    EXC_WAVE_MATH_ERROR
  else if r = STOP_MEMORY_VIOLATION then EXC_WAVE_MEMORY_VIOLATION
  else if r = STOP_ADDRESS_ERROR then EXC_WAVE_ADDRESS_ERROR
  else if r = STOP_ILLEGAL_INSTRUCTION then EXC_WAVE_ILLEGAL_INSTRUCTION
  else if r = STOP_ECC_ERROR ∨ r = STOP_FATAL_HALT then EXC_WAVE_ABORT
  else 0

/-- The do/while loop at debug_agent.cpp:930-989 as the code has it: each
iteration clears the lowest set bit of `bits` but switches on the full
`stopReason`.  `fuel` only bounds the iteration count; `bits + 1` suffices. -/
def resumeExceptionsGo (stopReason : Nat) : Nat → Nat → Nat → Nat
  | 0, _, acc => acc
  | fuel + 1, bits, acc =>
    let oneBit := bits ^^^ (bits &&& (bits - 1))
    let bits' := bits ^^^ oneBit
    let acc' := acc ||| exceptionForReason stopReason
    if bits' = 0 then acc' else resumeExceptionsGo stopReason fuel bits' acc'

/-- `resume_exceptions` as computed by the code for a wave whose stop-reason
bitmask is `r` (debug_agent.cpp:929-989). -/
def resumeExceptionsCode (r : Nat) : Nat :=
  resumeExceptionsGo r (r + 1) r 0

/-- The per-bit loop the claim (and spec section 4.4) describe: identical to
`resumeExceptionsGo` except that the switch dispatches on the extracted
`one_bit`.  This definition follows the spec's words, for comparison with
`resumeExceptionsGo` which follows the source. -/
def resumeExceptionsPerBitGo : Nat → Nat → Nat → Nat
  | 0, _, acc => acc
  | fuel + 1, bits, acc =>
    let oneBit := bits ^^^ (bits &&& (bits - 1))
    let bits' := bits ^^^ oneBit
    let acc' := acc ||| exceptionForReason oneBit
    if bits' = 0 then acc' else resumeExceptionsPerBitGo fuel bits' acc'

/-- The resume exception mask the claim describes: the OR, over every set
bit of `r`, of that single bit's mapped exception. -/
def resumeExceptionsPerBit (r : Nat) : Nat :=
  resumeExceptionsPerBitGo (r + 1) r 0

/-- One loop iteration clears the lowest set bit: the new `bits` value equals
`bits &&& (bits - 1)`. -/
theorem clear_lowest_eq (bits : Nat) :
    bits ^^^ (bits ^^^ (bits &&& (bits - 1))) = bits &&& (bits - 1) := by
  rw [← Nat.xor_assoc, Nat.xor_self, Nat.zero_xor]

/-- Any fuel above the bit value gives the same result: the loop variable
strictly decreases. -/
theorem resumeExceptionsGo_fuel (stopReason : Nat) :
    ∀ bits, ∀ f₁ f₂, bits < f₁ → bits < f₂ → ∀ acc,
      resumeExceptionsGo stopReason f₁ bits acc
        = resumeExceptionsGo stopReason f₂ bits acc := by
  intro bits
  induction bits using Nat.strong_induction_on with
  | _ bits ih =>
    intro f₁ f₂ h₁ h₂ acc
    match f₁, f₂ with
    | f₁ + 1, f₂ + 1 =>
      simp only [resumeExceptionsGo, clear_lowest_eq]
      split
      · rfl
      · rename_i hne
        have hlt : bits &&& (bits - 1) < bits := by
          rcases Nat.eq_zero_or_pos bits with h0 | h0
          · subst h0; simp at hne
          · calc bits &&& (bits - 1) ≤ bits - 1 := Nat.and_le_right
              _ < bits := Nat.sub_lt h0 Nat.one_pos
        exact ih _ hlt _ _ (lt_of_lt_of_le hlt (Nat.lt_succ_iff.mp h₁))
          (lt_of_lt_of_le hlt (Nat.lt_succ_iff.mp h₂)) _

/-- Claim C1 (code bug evidence): on the stop-reason mask
`FP_OVERFLOW | MEMORY_VIOLATION | DEBUG_TRAP` the code's resume loop — whose
switch dispatches on the full `stop_reason`, which matches no single-bit case
label — produces `EXCEPTION_NONE`, whereas the per-bit mapping the claim (and
spec section 4.4) describe produces `WAVE_MATH_ERROR | WAVE_MEMORY_VIOLATION`.
The two disagree, so the claim is right and the code is a slip (it extracts
`one_bit` and never consults it). -/
theorem C1_resume_mask_code_bug :
    resumeExceptionsCode
        (STOP_FP_OVERFLOW ||| STOP_MEMORY_VIOLATION ||| STOP_DEBUG_TRAP)
      = EXC_NONE
    ∧ resumeExceptionsPerBit
        (STOP_FP_OVERFLOW ||| STOP_MEMORY_VIOLATION ||| STOP_DEBUG_TRAP)
      = (EXC_WAVE_MATH_ERROR ||| EXC_WAVE_MEMORY_VIOLATION)
    ∧ EXC_NONE ≠ (EXC_WAVE_MATH_ERROR ||| EXC_WAVE_MEMORY_VIOLATION) := by
  refine ⟨by decide, by decide, by decide⟩

/-! ## Ordered maps and the predecessor lookup

`std::map` iteration order is ascending by key; `prev(upper_bound(addr))` is
the entry with the greatest key `≤ addr`.  We represent the maps as
association lists whose well-formedness is strict ascending key order
(`List.Pairwise`), and embed `prev(upper_bound(addr))` as `predEntry`: the
last entry in list order whose key is `≤ addr`. -/

/-- `prev(upper_bound(addr))` on an ascending association list: the last
entry in list order whose key is `≤ addr` (`none` when `upper_bound` is
`begin`, i.e. no key is `≤ addr`). -/
def predEntry {α : Type} : List (Nat × α) → Nat → Option (Nat × α)
  | [], _ => none
  | p :: rest, addr =>
    match predEntry rest addr with
    | some q => some q
    | none => if p.1 ≤ addr then some p else none

/-- Keys strictly ascend: the `std::map` representation invariant. -/
def KeysSorted {α : Type} (m : List (Nat × α)) : Prop :=
  List.Pairwise (fun a b => a.1 < b.1) m

theorem predEntry_mem {α : Type} {m : List (Nat × α)} {addr : Nat}
    {p : Nat × α} (h : predEntry m addr = some p) : p ∈ m ∧ p.1 ≤ addr := by
  induction m with
  | nil => simp [predEntry] at h
  | cons q rest ih =>
    cases hr : predEntry rest addr with
    | some r =>
      rw [predEntry, hr] at h
      cases h
      obtain ⟨h₁, h₂⟩ := ih hr
      exact ⟨List.mem_cons_of_mem _ h₁, h₂⟩
    | none =>
      rw [predEntry, hr] at h
      by_cases hq : q.1 ≤ addr
      · rw [if_pos hq] at h; cases h; exact ⟨List.mem_cons_self _ _, hq⟩
      · rw [if_neg hq] at h; cases h

theorem predEntry_none {α : Type} {m : List (Nat × α)} {addr : Nat}
    (h : predEntry m addr = none) : ∀ q ∈ m, addr < q.1 := by
  induction m with
  | nil => simp
  | cons p rest ih =>
    cases hr : predEntry rest addr with
    | some r => rw [predEntry, hr] at h; cases h
    | none =>
      rw [predEntry, hr] at h
      by_cases hp : p.1 ≤ addr
      · rw [if_pos hp] at h; cases h
      · rw [if_neg hp] at h
        intro q hq
        rcases List.mem_cons.mp hq with rfl | hq'
        · omega
        · exact ih hr q hq'

theorem predEntry_greatest {α : Type} {m : List (Nat × α)} {addr : Nat}
    {p : Nat × α} (hs : KeysSorted m) (h : predEntry m addr = some p) :
    ∀ q ∈ m, q.1 ≤ addr → q.1 ≤ p.1 := by
  induction m with
  | nil => simp [predEntry] at h
  | cons r rest ih =>
    have hs' : KeysSorted rest := (List.pairwise_cons.mp hs).2
    have hrlt : ∀ q ∈ rest, r.1 < q.1 := (List.pairwise_cons.mp hs).1
    cases hr : predEntry rest addr with
    | some r' =>
      rw [predEntry, hr] at h
      cases h
      intro q hq hqa
      rcases List.mem_cons.mp hq with rfl | hq'
      · exact le_of_lt (hrlt _ (predEntry_mem hr).1)
      · exact ih hs' hr q hq' hqa
    | none =>
      rw [predEntry, hr] at h
      by_cases hrle : r.1 ≤ addr
      · rw [if_pos hrle] at h
        cases h
        intro q hq hqa
        rcases List.mem_cons.mp hq with rfl | hq'
        · exact le_refl _
        · exact absurd hqa (not_le.mpr (predEntry_none hr q hq'))
      · rw [if_neg hrle] at h; cases h

theorem keys_inj {α : Type} {m : List (Nat × α)} (hs : KeysSorted m) :
    ∀ p ∈ m, ∀ q ∈ m, p.1 = q.1 → p = q := by
  induction m with
  | nil => simp
  | cons r rest ih =>
    obtain ⟨hr, hs'⟩ := List.pairwise_cons.mp hs
    intro p hp q hq hpq
    rcases List.mem_cons.mp hp with rfl | hp' <;>
      rcases List.mem_cons.mp hq with rfl | hq'
    · rfl
    · exact absurd hpq (ne_of_lt (hr q hq'))
    · exact absurd hpq.symm (ne_of_lt (hr p hp'))
    · exact ih hs' p hp' q hq' hpq

/-- For an ascending map, `predEntry` is exactly the entry with the greatest
key `≤ addr`. -/
theorem predEntry_eq_some_iff {α : Type} {m : List (Nat × α)} {addr : Nat}
    (hs : KeysSorted m) (p : Nat × α) :
    predEntry m addr = some p
      ↔ p ∈ m ∧ p.1 ≤ addr ∧ ∀ q ∈ m, q.1 ≤ addr → q.1 ≤ p.1 := by
  constructor
  · intro h
    obtain ⟨h₁, h₂⟩ := predEntry_mem h
    exact ⟨h₁, h₂, predEntry_greatest hs h⟩
  · rintro ⟨hmem, hle, hmax⟩
    cases h : predEntry m addr with
    | none => exact absurd hle (not_le.mpr (predEntry_none h p hmem))
    | some q =>
      obtain ⟨hq₁, hq₂⟩ := predEntry_mem h
      have h₁ := predEntry_greatest hs h p hmem hle
      have h₂ := hmax q hq₁ hq₂
      exact congrArg some (keys_inj hs q hq₁ p hmem (le_antisymm h₂ h₁))

/-! ## `code_object_t::find_symbol` (code_object.cpp:105-132)

The symbol map stores, at each absolute load address, the mangled name and
the symbol size.  `find_symbol` does the predecessor lookup and accepts the
entry iff `addr < value + size`; on success the returned name is demangled
(by the external `abi::__cxa_demangle`, which we pass in as a parameter:
`some` = demangling succeeded, `none` = the mangled name is kept). -/

structure SymbolInfo where
  m_name : String
  m_value : Nat
  m_size : Nat
deriving DecidableEq, Repr

/-- `abi::__cxa_demangle` wrapper: the demangled name on success, otherwise
the original name (code_object.cpp:119-124). -/
def demangleName (dem : String → Option String) (s : String) : String :=
  match dem s with
  | some d => d
  | none => s

/-- `code_object_t::find_symbol` over a loaded symbol map. -/
def findSymbol (dem : String → Option String) (m : List (Nat × String × Nat))
    (addr : Nat) : Option SymbolInfo :=
  match predEntry m addr with
  | some (value, name, size) =>
    if addr < value + size then some ⟨demangleName dem name, value, size⟩
    else none
  | none => none

/-- Claim C3: `find_symbol` performs a predecessor lookup (greatest symbol
value `≤ addr`) in the symbol map and returns that symbol iff
`addr < value + size`, with its name demangled; and on the map
`{A: base..base+16, B: base+32..base+40}` it returns A at `base+15`, none at
`base+20`, B at `base+32`, and none at `base+40`. -/
theorem C3_find_symbol :
    (∀ (m : List (Nat × String × Nat)) (dem : String → Option String)
        (addr : Nat), KeysSorted m → ∀ s,
      findSymbol dem m addr = some s
        ↔ ∃ value name size, (value, name, size) ∈ m ∧ value ≤ addr
            ∧ (∀ q ∈ m, q.1 ≤ addr → q.1 ≤ value) ∧ addr < value + size
            ∧ s = ⟨demangleName dem name, value, size⟩)
    ∧ ∀ (base : Nat) (dem : String → Option String),
        findSymbol dem [(base, "A", 16), (base + 32, "B", 8)] (base + 15)
          = some ⟨demangleName dem "A", base, 16⟩
        ∧ findSymbol dem [(base, "A", 16), (base + 32, "B", 8)] (base + 20)
          = none
        ∧ findSymbol dem [(base, "A", 16), (base + 32, "B", 8)] (base + 32)
          = some ⟨demangleName dem "B", base + 32, 8⟩
        ∧ findSymbol dem [(base, "A", 16), (base + 32, "B", 8)] (base + 40)
          = none := by
  constructor
  · intro m dem addr hs s
    cases h : predEntry m addr with
    | none =>
      simp only [findSymbol, h]
      constructor
      · intro hfalse; cases hfalse
      · rintro ⟨v, n, sz, hmem, hle, hmax, hlt, rfl⟩
        exact absurd hle (not_le.mpr (predEntry_none h (v, n, sz) hmem))
    | some p =>
      obtain ⟨v, n, sz⟩ := p
      by_cases hlt : addr < v + sz
      · simp only [findSymbol, h, if_pos hlt]
        constructor
        · intro hsome
          cases hsome
          obtain ⟨hmem, hle, hmax⟩ := (predEntry_eq_some_iff hs _).mp h
          exact ⟨v, n, sz, hmem, hle, hmax, hlt, rfl⟩
        · rintro ⟨v', n', sz', hmem, hle, hmax, hlt', rfl⟩
          have h2 : predEntry m addr = some (v', n', sz') :=
            (predEntry_eq_some_iff hs _).mpr ⟨hmem, hle, hmax⟩
          rw [h] at h2
          cases h2
          rfl
      · simp only [findSymbol, h, if_neg hlt]
        constructor
        · intro hfalse; cases hfalse
        · rintro ⟨v', n', sz', hmem, hle, hmax, hlt', rfl⟩
          have h2 : predEntry m addr = some (v', n', sz') :=
            (predEntry_eq_some_iff hs _).mpr ⟨hmem, hle, hmax⟩
          rw [h] at h2
          cases h2
          exact absurd hlt' hlt
  · intro base dem
    refine ⟨?_, ?_, ?_, ?_⟩ <;> (simp only [findSymbol, predEntry]; norm_num)

/-- Witness for C3: the predecessor-lookup characterisation applied to the
concrete sorted two-symbol map at address 15. -/
theorem C3_find_symbol_witness :
    findSymbol (fun _ => none) [(0, "A", 16), (32, "B", 8)] 15
      = some ⟨"A", 0, 16⟩ :=
  (C3_find_symbol.1 [(0, "A", 16), (32, "B", 8)] (fun _ => none) 15
      (by constructor <;> simp) ⟨"A", 0, 16⟩).mpr
    ⟨0, "A", 16, by simp, by omega, by decide, by omega, rfl⟩

/-! ## `code_object_t::load_symbol_map` (code_object.cpp:379-436)

The loop inserts, for every `SHT_SYMTAB`/`SHT_DYNSYM` entry of function type
with a defined section index, the pair `(name, st_size)` at key
`load_address + st_value`; `std::map::emplace` keeps an existing entry, and
the code then replaces it when the new `st_size` is strictly larger. -/

def STT_FUNC : Nat := 2
def SHN_UNDEF : Nat := 0

/-- `GELF_ST_TYPE`: the low four bits of `st_info`. -/
def ST_TYPE (info : Nat) : Nat := info &&& 15

structure ElfSym where
  st_info : Nat
  st_shndx : Nat
  st_name : String
  st_value : Nat
  st_size : Nat
deriving DecidableEq, Repr

/-- `m_symbol_map->emplace (key, v)` followed by the larger-size replacement
(code_object.cpp:423-431), on the ascending association-list representation
of the map. -/
def symMapEmplace (key : Nat) (v : String × Nat) :
    List (Nat × String × Nat) → List (Nat × String × Nat)
  | [] => [(key, v)]
  | (k, w) :: rest =>
    if key < k then (key, v) :: (k, w) :: rest
    else if key = k then
      if v.2 > w.2 then (k, v) :: rest else (k, w) :: rest
    else (k, w) :: symMapEmplace key v rest

/-- An `ElfSym` passes the filter at code_object.cpp:416-417: function type
and defined section index. -/
def symQualifies (s : ElfSym) : Prop :=
  ST_TYPE s.st_info = STT_FUNC ∧ s.st_shndx ≠ SHN_UNDEF

instance (s : ElfSym) : Decidable (symQualifies s) := by
  unfold symQualifies; infer_instance

/-- One iteration of the `load_symbol_map` loop body: skip entries that are
not defined functions (code_object.cpp:416-418), emplace the rest. -/
def symStep (loadAddress : Nat) (m : List (Nat × String × Nat))
    (s : ElfSym) : List (Nat × String × Nat) :=
  if ST_TYPE s.st_info ≠ STT_FUNC ∨ s.st_shndx = SHN_UNDEF then m
  else symMapEmplace (loadAddress + s.st_value) (s.st_name, s.st_size) m

/-- The symbol-table loop of `load_symbol_map`, folded over the entries of
all `SHT_SYMTAB`/`SHT_DYNSYM` sections in iteration order. -/
def loadSymbolMap (loadAddress : Nat) (syms : List ElfSym) :
    List (Nat × String × Nat) :=
  syms.foldl (symStep loadAddress) []

theorem mem_symMapEmplace {key : Nat} {v : String × Nat}
    {m : List (Nat × String × Nat)} {p : Nat × String × Nat}
    (h : p ∈ symMapEmplace key v m) : p = (key, v) ∨ p ∈ m := by
  induction m with
  | nil => simpa [symMapEmplace] using h
  | cons q rest ih =>
    obtain ⟨k, w⟩ := q
    simp only [symMapEmplace] at h
    by_cases h₁ : key < k
    · rw [if_pos h₁] at h
      rcases List.mem_cons.mp h with rfl | h'
      · left; rfl
      · right; exact h'
    · rw [if_neg h₁] at h
      by_cases h₂ : key = k
      · rw [if_pos h₂] at h
        by_cases h₃ : v.2 > w.2
        · rw [if_pos h₃] at h
          rcases List.mem_cons.mp h with rfl | h'
          · left; rw [h₂]
          · right; exact List.mem_cons_of_mem _ h'
        · rw [if_neg h₃] at h
          right; exact h
      · rw [if_neg h₂] at h
        rcases List.mem_cons.mp h with rfl | h'
        · right; exact List.mem_cons_self _ _
        · rcases ih h' with h'' | h''
          · left; exact h''
          · right; exact List.mem_cons_of_mem _ h''

theorem keysSorted_symMapEmplace {key : Nat} {v : String × Nat}
    {m : List (Nat × String × Nat)} (hs : KeysSorted m) :
    KeysSorted (symMapEmplace key v m) := by
  induction m with
  | nil => simp [symMapEmplace, KeysSorted]
  | cons q rest ih =>
    obtain ⟨k, w⟩ := q
    obtain ⟨hhead, hrest⟩ := List.pairwise_cons.mp hs
    simp only [symMapEmplace]
    by_cases h₁ : key < k
    · rw [if_pos h₁]
      exact List.pairwise_cons.mpr
        ⟨fun q hq => by
          rcases List.mem_cons.mp hq with rfl | hq'
          · exact h₁
          · exact h₁.trans (hhead q hq'), hs⟩
    · rw [if_neg h₁]
      by_cases h₂ : key = k
      · rw [if_pos h₂]
        by_cases h₃ : v.2 > w.2
        · rw [if_pos h₃]
          exact List.pairwise_cons.mpr ⟨fun q hq => hhead q hq, hrest⟩
        · rw [if_neg h₃]
          exact hs
      · rw [if_neg h₂]
        refine List.pairwise_cons.mpr ⟨fun q hq => ?_, ih hrest⟩
        rcases mem_symMapEmplace hq with rfl | hq'
        · omega
        · exact hhead q hq'

/-- The map binds `k` to some value of size at least `sz`. -/
def KeyedAtLeast (m : List (Nat × String × Nat)) (k : Nat) (sz : Nat) : Prop :=
  ∃ nm sz', (k, nm, sz') ∈ m ∧ sz ≤ sz'

theorem keyedAtLeast_emplace_self (m : List (Nat × String × Nat)) (k : Nat)
    (nm : String) (sz : Nat) : KeyedAtLeast (symMapEmplace k (nm, sz) m) k sz := by
  induction m with
  | nil => exact ⟨nm, sz, by simp [symMapEmplace], le_refl _⟩
  | cons q rest ih =>
    obtain ⟨k₀, w₀⟩ := q
    simp only [symMapEmplace]
    by_cases h₁ : k < k₀
    · rw [if_pos h₁]
      exact ⟨nm, sz, List.mem_cons_self _ _, le_refl _⟩
    · rw [if_neg h₁]
      by_cases h₂ : k = k₀
      · rw [if_pos h₂]
        by_cases h₃ : sz > w₀.2
        · rw [if_pos h₃]
          exact ⟨nm, sz, by rw [h₂]; exact List.mem_cons_self _ _, le_refl _⟩
        · rw [if_neg h₃]
          exact ⟨w₀.1, w₀.2, by rw [h₂]; exact List.mem_cons_self _ _, by omega⟩
      · rw [if_neg h₂]
        obtain ⟨nm', sz', hmem, hle⟩ := ih
        exact ⟨nm', sz', List.mem_cons_of_mem _ hmem, hle⟩

theorem keyedAtLeast_emplace_mono {m : List (Nat × String × Nat)} {k sz : Nat}
    (h : KeyedAtLeast m k sz) (k' : Nat) (v' : String × Nat) :
    KeyedAtLeast (symMapEmplace k' v' m) k sz := by
  induction m with
  | nil => obtain ⟨nm, sz', hmem, _⟩ := h; simp at hmem
  | cons q rest ih =>
    obtain ⟨k₀, w₀⟩ := q
    obtain ⟨nm, sz', hmem, hle⟩ := h
    simp only [symMapEmplace]
    by_cases h₁ : k' < k₀
    · rw [if_pos h₁]
      exact ⟨nm, sz', List.mem_cons_of_mem _ hmem, hle⟩
    · rw [if_neg h₁]
      by_cases h₂ : k' = k₀
      · rw [if_pos h₂]
        rcases List.mem_cons.mp hmem with heq | hmem'
        · -- the tracked entry is the head, possibly replaced by a larger one
          have hk : k = k₀ := congrArg Prod.fst heq
          have hsz : sz' = w₀.2 := congrArg (fun p => p.2.2) heq
          by_cases h₃ : v'.2 > w₀.2
          · rw [if_pos h₃]
            exact ⟨v'.1, v'.2, by rw [hk]; exact List.mem_cons_self _ _,
              by omega⟩
          · rw [if_neg h₃]
            exact ⟨nm, sz', by rw [heq]; exact List.mem_cons_self _ _, hle⟩
        · by_cases h₃ : v'.2 > w₀.2
          · rw [if_pos h₃]
            exact ⟨nm, sz', List.mem_cons_of_mem _ hmem', hle⟩
          · rw [if_neg h₃]
            exact ⟨nm, sz', List.mem_cons_of_mem _ hmem', hle⟩
      · rw [if_neg h₂]
        rcases List.mem_cons.mp hmem with heq | hmem'
        · exact ⟨nm, sz', by rw [heq]; exact List.mem_cons_self _ _, hle⟩
        · obtain ⟨nm'', sz'', hmem'', hle''⟩ := ih ⟨nm, sz', hmem', hle⟩
          exact ⟨nm'', sz'', List.mem_cons_of_mem _ hmem'', hle''⟩

theorem symStep_sorted {la : Nat} {m : List (Nat × String × Nat)}
    (hs : KeysSorted m) (s : ElfSym) : KeysSorted (symStep la m s) := by
  unfold symStep
  split
  · exact hs
  · exact keysSorted_symMapEmplace hs

theorem foldl_symStep_sorted (la : Nat) :
    ∀ (syms : List ElfSym) (m : List (Nat × String × Nat)), KeysSorted m →
      KeysSorted (syms.foldl (symStep la) m) := by
  intro syms
  induction syms with
  | nil => intro m hm; exact hm
  | cons s rest ih => intro m hm; exact ih _ (symStep_sorted hm s)

theorem mem_symStep {la : Nat} {m : List (Nat × String × Nat)} {s : ElfSym}
    {p : Nat × String × Nat} (h : p ∈ symStep la m s) :
    p ∈ m ∨ (symQualifies s ∧ p = (la + s.st_value, s.st_name, s.st_size)) := by
  unfold symStep at h
  split at h
  · exact Or.inl h
  · rename_i hcond
    rw [not_or] at hcond
    rcases mem_symMapEmplace h with heq | hmem
    · exact Or.inr ⟨⟨not_not.mp hcond.1, hcond.2⟩, heq⟩
    · exact Or.inl hmem

theorem foldl_symStep_mem (la : Nat) :
    ∀ (syms : List ElfSym) (m : List (Nat × String × Nat))
      (p : Nat × String × Nat), p ∈ syms.foldl (symStep la) m →
      p ∈ m ∨ ∃ s ∈ syms, symQualifies s
        ∧ p = (la + s.st_value, s.st_name, s.st_size) := by
  intro syms
  induction syms with
  | nil => intro m p h; exact Or.inl h
  | cons s rest ih =>
    intro m p h
    rcases ih _ p h with h' | ⟨s', hs', hq, hp⟩
    · rcases mem_symStep h' with h'' | ⟨hq, hp⟩
      · exact Or.inl h''
      · exact Or.inr ⟨s, List.mem_cons_self _ _, hq, hp⟩
    · exact Or.inr ⟨s', List.mem_cons_of_mem _ hs', hq, hp⟩

theorem keyedAtLeast_symStep {la : Nat} {m : List (Nat × String × Nat)}
    {k sz : Nat} (h : KeyedAtLeast m k sz) (s : ElfSym) :
    KeyedAtLeast (symStep la m s) k sz := by
  unfold symStep
  split
  · exact h
  · exact keyedAtLeast_emplace_mono h _ _

theorem keyedAtLeast_foldl (la : Nat) :
    ∀ (syms : List ElfSym) (m : List (Nat × String × Nat)) (k sz : Nat),
      KeyedAtLeast m k sz → KeyedAtLeast (syms.foldl (symStep la) m) k sz := by
  intro syms
  induction syms with
  | nil => intro m k sz h; exact h
  | cons s rest ih => intro m k sz h; exact ih _ _ _ (keyedAtLeast_symStep h s)

theorem foldl_symStep_complete (la : Nat) :
    ∀ (syms : List ElfSym) (m : List (Nat × String × Nat)) (s : ElfSym),
      s ∈ syms → symQualifies s →
      KeyedAtLeast (syms.foldl (symStep la) m) (la + s.st_value) s.st_size := by
  intro syms
  induction syms with
  | nil => intro m s h; simp at h
  | cons s₀ rest ih =>
    intro m s hmem hq
    rcases List.mem_cons.mp hmem with rfl | hmem'
    · have hstep : symStep la m s
          = symMapEmplace (la + s.st_value) (s.st_name, s.st_size) m := by
        unfold symStep
        rw [if_neg]
        rw [not_or, not_not]
        exact ⟨hq.1, hq.2⟩
      rw [List.foldl_cons, hstep]
      exact keyedAtLeast_foldl la rest _ _ _
        (keyedAtLeast_emplace_self m (la + s.st_value) s.st_name s.st_size)
    · exact ih _ s hmem' hq

/-- Claim C4: `load_symbol_map` inserts exactly the `STT_FUNC` entries with a
defined section index, keyed by `load_address + st_value` (the map stays
key-ascending, so there is at most one entry per address); an inserted
symbol's key always holds a size at least as large as that symbol's
`st_size`; and on an address collision the entry with the larger `st_size`
is the one left in the map: inserting sizes 16 and 64 at the same value, in
either order, leaves the size-64 entry. -/
theorem C4_load_symbol_map :
    (∀ la syms, KeysSorted (loadSymbolMap la syms))
    ∧ (∀ la syms p, p ∈ loadSymbolMap la syms →
        ∃ s ∈ syms, symQualifies s
          ∧ p = (la + s.st_value, s.st_name, s.st_size))
    ∧ (∀ la syms s, s ∈ syms → symQualifies s →
        KeyedAtLeast (loadSymbolMap la syms) (la + s.st_value) s.st_size)
    ∧ (∀ la v (n₁ n₂ : String),
        loadSymbolMap la [⟨2, 1, n₁, v, 16⟩, ⟨2, 1, n₂, v, 64⟩]
          = [(la + v, n₂, 64)]
        ∧ loadSymbolMap la [⟨2, 1, n₂, v, 64⟩, ⟨2, 1, n₁, v, 16⟩]
          = [(la + v, n₂, 64)]) := by
  refine ⟨?_, ?_, ?_, ?_⟩
  · intro la syms
    exact foldl_symStep_sorted la syms [] (by simp [KeysSorted])
  · intro la syms p h
    rcases foldl_symStep_mem la syms [] p h with h' | h'
    · simp at h'
    · exact h'
  · intro la syms s hmem hq
    exact foldl_symStep_complete la syms [] s hmem hq
  · intro la v n₁ n₂
    constructor <;>
      simp [loadSymbolMap, symStep, symMapEmplace, ST_TYPE, STT_FUNC,
        SHN_UNDEF, show (2 : Nat) &&& 15 = 2 from by decide]

/-- Witness for C4: the collision rule applied to one concrete qualifying
symbol: its address is bound with at least its size. -/
theorem C4_load_symbol_map_witness :
    KeyedAtLeast (loadSymbolMap 0 [⟨2, 1, "f", 4, 16⟩]) (0 + 4) 16 :=
  C4_load_symbol_map.2.2.1 0 [⟨2, 1, "f", 4, 16⟩] ⟨2, 1, "f", 4, 16⟩
    (List.mem_cons_self _ _) (by decide)

/-! ## `code_object_t::open` (code_object.cpp:134-347): the URI read phase

`openReadPhase` embeds the `try` block at code_object.cpp:186-259, taking
the `offset`/`size` URI parameters after `std::stoul` parsing (`none` =
parameter absent) and the external collaborators as parameters: the
filesystem (`file` = the named file's bytes, `none` when `ifstream` cannot
open it) and the debugger-API global-memory read (`mem offset size`, `none`
= read failure).  Its `buffer` is the byte vector the block produces
(`none` = the block returned early and the code object stays unopened);
`warned` records whether `agent_warning` ran.  Note the early silent
`return` at code_object.cpp:194-195 when the `size` parameter parses to 0.

`openModel` completes `open`: the bytes are written to the anonymous backing
file (`memfd_create` and `write` are assumed to succeed) and handed to
libelf, abstracted as `elf bytes = some phdrs` giving the program headers
`(p_type, p_vaddr, p_memsz)`, or `none` when `elf_begin`/`elf_getphdrnum`/
`gelf_getphdr` fails; `m_mem_size` is the largest `p_vaddr + p_memsz` over
`PT_LOAD` headers (code_object.cpp:332-344). -/

structure ReadPhase where
  buffer : Option (List Nat)
  warned : Bool
deriving DecidableEq, Repr

def openReadPhase (protocol : String) (offsetP sizeP : Option Nat)
    (file : Option (List Nat)) (mem : Nat → Nat → Option (List Nat)) :
    ReadPhase :=
  let offset := offsetP.getD 0
  if sizeP = some 0 then ⟨none, false⟩
  else
    let size := sizeP.getD 0
    if protocol = "file" then
      match file with
      | none => ⟨none, true⟩
      | some bytes =>
        if size = 0 then
          if bytes.length < offset then ⟨none, true⟩
          else ⟨some ((bytes.drop offset).take (bytes.length - offset)), false⟩
        else
          ⟨some ((bytes.drop offset).take size
              ++ List.replicate (size - min size (bytes.length - offset)) 0),
            false⟩
    else if protocol = "memory" then
      if offset = 0 ∨ size = 0 then ⟨none, true⟩
      else
        match mem offset size with
        | none => ⟨none, true⟩
        | some bs =>
          ⟨some (bs.take size ++ List.replicate (size - min size bs.length) 0),
            false⟩
    else ⟨none, true⟩

def PT_LOAD : Nat := 1

/-- `m_mem_size`: the largest `p_vaddr + p_memsz` over `PT_LOAD` program
headers (code_object.cpp:342-343), 0 when there is none. -/
def memSizeOfPhdrs (phdrs : List (Nat × Nat × Nat)) : Nat :=
  phdrs.foldl (fun acc p => if p.1 = PT_LOAD then max acc (p.2.1 + p.2.2)
    else acc) 0

structure OpenResult where
  isOpen : Bool
  buffer : List Nat
  memSize : Nat
  warned : Bool
deriving DecidableEq, Repr

def openModel (protocol : String) (offsetP sizeP : Option Nat)
    (file : Option (List Nat)) (mem : Nat → Nat → Option (List Nat))
    (elf : List Nat → Option (List (Nat × Nat × Nat))) : OpenResult :=
  match openReadPhase protocol offsetP sizeP file mem with
  | ⟨none, w⟩ => ⟨false, [], 0, w⟩
  | ⟨some bytes, w⟩ =>
    match elf bytes with
    | none => ⟨false, bytes, 0, true⟩
    | some phdrs => ⟨true, bytes, memSizeOfPhdrs phdrs, w⟩

/-- Claim C5 (amended): for a `file` URI whose `size` parameter is ABSENT,
`open` reads the bytes `[offset, file_length)` (size clamped to file length
minus offset) and proceeds, becoming opened exactly when those bytes parse
as an ELF; when the offset exceeds the file length it warns and stays
unopened; and when the `size` parameter is explicitly 0 it returns silently
without reading, the object staying unopened. -/
theorem C5_open_file_read :
    ∀ (offsetP : Option Nat) (bytes : List Nat)
      (mem : Nat → Nat → Option (List Nat))
      (elf : List Nat → Option (List (Nat × Nat × Nat))),
      (offsetP.getD 0 ≤ bytes.length →
        openReadPhase "file" offsetP none (some bytes) mem
          = ⟨some (bytes.drop (offsetP.getD 0)), false⟩
        ∧ (openModel "file" offsetP none (some bytes) mem elf).isOpen
            = (elf (bytes.drop (offsetP.getD 0))).isSome)
      ∧ (bytes.length < offsetP.getD 0 →
          openReadPhase "file" offsetP none (some bytes) mem = ⟨none, true⟩
          ∧ (openModel "file" offsetP none (some bytes) mem elf).isOpen
              = false)
      ∧ openReadPhase "file" offsetP (some 0) (some bytes) mem = ⟨none, false⟩
      ∧ (openModel "file" offsetP (some 0) (some bytes) mem elf).isOpen
          = false := by
  intro offsetP bytes mem elf
  have htake : (bytes.drop (offsetP.getD 0)).take
      (bytes.length - offsetP.getD 0) = bytes.drop (offsetP.getD 0) := by
    apply List.take_of_length_le
    simp
  refine ⟨?_, ?_, ?_, ?_⟩
  · intro hle
    have hrp : openReadPhase "file" offsetP none (some bytes) mem
        = ⟨some (bytes.drop (offsetP.getD 0)), false⟩ := by
      simp [openReadPhase, not_lt.mpr hle, htake]
    refine ⟨hrp, ?_⟩
    rw [openModel, hrp]
    cases h : elf (bytes.drop (offsetP.getD 0)) <;> simp [h]
  · intro hgt
    have hrp : openReadPhase "file" offsetP none (some bytes) mem
        = ⟨none, true⟩ := by
      simp [openReadPhase, hgt]
    exact ⟨hrp, by rw [openModel, hrp]⟩
  · simp [openReadPhase]
  · simp [openModel, openReadPhase]

/-- Counterexample to C5 as stated: with the `size` parameter explicitly
given as 0 (file bytes `[7]`, offset 0, a well-formed ELF parse available),
`open` does NOT read `[offset, file_length)` — the `try` block returns
silently at code_object.cpp:194-195 — and the code object is not opened. -/
theorem C5_open_file_counterexample :
    (openReadPhase "file" none (some 0) (some [7]) (fun _ _ => none)).buffer
      ≠ some [7]
    ∧ (openModel "file" none (some 0) (some [7]) (fun _ _ => none)
        (fun b => some [(1, 0, b.length)])).isOpen = false := by
  refine ⟨by decide, by decide⟩

/-- Witness for C5: the size-absent read at offset 1 of a three-byte file. -/
theorem C5_open_file_read_witness :
    openReadPhase "file" (some 1) none (some [5, 6, 7]) (fun _ _ => none)
      = ⟨some [6, 7], false⟩
    ∧ (openModel "file" (some 1) none (some [5, 6, 7]) (fun _ _ => none)
        (fun _ => none)).isOpen = ((fun (_ : List Nat) =>
          (none : Option (List (Nat × Nat × Nat)))) [6, 7]).isSome :=
  (C5_open_file_read (some 1) [5, 6, 7] (fun _ _ => none) (fun _ => none)).1
    (by decide)

/-- Claim C6 (amended): for a `memory` URI whose `offset` or `size`
parameter is zero or absent, `open` performs no memory read and leaves the
code object unopened; it emits a warning except when the `size` parameter is
explicitly 0, in which case it returns silently before reaching the
`memory` branch. -/
theorem C6_open_memory_invalid :
    ∀ (offsetP sizeP : Option Nat) (mem mem' : Nat → Nat → Option (List Nat))
      (elf : List Nat → Option (List (Nat × Nat × Nat))),
      offsetP.getD 0 = 0 ∨ sizeP.getD 0 = 0 →
      (openReadPhase "memory" offsetP sizeP none mem).buffer = none
      ∧ (openReadPhase "memory" offsetP sizeP none mem).warned
          = decide (sizeP ≠ some 0)
      ∧ openReadPhase "memory" offsetP sizeP none mem
          = openReadPhase "memory" offsetP sizeP none mem'
      ∧ (openModel "memory" offsetP sizeP none mem elf).isOpen = false := by
  intro offsetP sizeP mem mem' elf h
  by_cases hz : sizeP = some 0
  · subst hz
    refine ⟨by simp [openReadPhase], by simp [openReadPhase],
      by simp [openReadPhase], by simp [openModel, openReadPhase]⟩
  · have hcond : offsetP.getD 0 = 0 ∨ sizeP.getD 0 = 0 := h
    have hrp : openReadPhase "memory" offsetP sizeP none mem
        = ⟨none, true⟩ := by
      simp [openReadPhase, hz, hcond]
    have hrp' : openReadPhase "memory" offsetP sizeP none mem'
        = ⟨none, true⟩ := by
      simp [openReadPhase, hz, hcond]
    refine ⟨by rw [hrp], ?_, by rw [hrp, hrp'], by rw [openModel, hrp]⟩
    rw [hrp]
    simp [hz]

/-- Counterexample to C6 as stated: at `offset=0&size=0` the open is indeed
rejected without a read, but NO warning is emitted — the `try` block
returns silently at code_object.cpp:194-195 before the `memory` branch's
warning is reached, while the claim requires a warning. -/
theorem C6_open_memory_counterexample :
    (openReadPhase "memory" (some 0) (some 0) none
      (fun _ _ => none)).warned = false := by decide

/-- Witness for C6: a `memory` URI with both parameters absent is rejected
with a warning, reads nothing, and leaves the object unopened. -/
theorem C6_open_memory_invalid_witness :
    (openReadPhase "memory" none none none (fun _ _ => some [1])).buffer
      = none
    ∧ (openReadPhase "memory" none none none
        (fun _ _ => some [1])).warned = decide ((none : Option Nat) ≠ some 0)
    ∧ openReadPhase "memory" none none none (fun _ _ => some [1])
        = openReadPhase "memory" none none none (fun _ _ => none)
    ∧ (openModel "memory" none none none (fun _ _ => some [1])
        (fun _ => some [])).isOpen = false :=
  C6_open_memory_invalid none none (fun _ _ => some [1]) (fun _ _ => none)
    (fun _ => some []) (Or.inl (by decide))

/-! ## `code_object_t::disassemble` — the start-pc anchor
(code_object.cpp:522-604)

Three stages fix `start_pc`: the backward walk over `m_line_number_map`
(walk `prev` from `upper_bound(pc)` until the distance to `pc` reaches
`context_byte_size = 24` or the map's `begin` is reached; `pc` itself when
the map has no key `≤ pc`); the clamp of `[start_pc, end_pc]` into a
`m_pc_ranges_map` range covering `pc`; and the forward skip by real
instruction sizes while the remaining distance exceeds 24.  The instruction
oracle `insn a` abstracts the memory read plus
`amd_dbgapi_disassemble_instruction` at address `a` (`none` = either
failed, which breaks the loop). -/

def contextByteSize : Nat := 24

/-- The backward walk (code_object.cpp:532-538) over the line-map keys that
are `≤ pc`, from the greatest towards the least: stop at the first key at
distance `≥ 24`, else at the least key. -/
def backWalkGo (pc : Nat) : List Nat → Option Nat
  | [] => none
  | [k] => some k
  | k :: rest =>
    if contextByteSize ≤ pc - k then some k else backWalkGo pc rest

def backWalk (lineKeys : List Nat) (pc : Nat) : Option Nat :=
  backWalkGo pc ((lineKeys.filter (fun k => decide (k ≤ pc))).reverse)

/-- `start_pc` after the backward walk (`pc` itself when no line info
precedes, code_object.cpp:543-548). -/
def startPCInit (lineKeys : List Nat) (pc : Nat) : Nat :=
  (backWalk lineKeys pc).getD pc

/-- The range clamp (code_object.cpp:555-563). -/
def clampRange (ranges : List (Nat × Nat)) (pc s e : Nat) : Nat × Nat :=
  match predEntry ranges pc with
  | some (lo, hi) => if pc < hi then (max s lo, min e hi) else (s, e)
  | none => (s, e)

/-- The forward instruction-size skip (code_object.cpp:583-604), fuel-capped;
fuel `pc - s` suffices whenever the oracle returns positive sizes. -/
def fwdSkip (insn : Nat → Option Nat) (pc : Nat) : Nat → Nat → Nat
  | 0, s => s
  | fuel + 1, s =>
    if contextByteSize < pc - s then
      match insn s with
      | none => s
      | some size =>
        if pc - (s + size) < contextByteSize then s
        else fwdSkip insn pc fuel (s + size)
    else s

/-- `start_pc` when the instruction walk of the disassembly begins. -/
def disasmStartPC (lineKeys : List Nat) (ranges : List (Nat × Nat))
    (insn : Nat → Option Nat) (pc : Nat) : Nat :=
  let s0 := startPCInit lineKeys pc
  let se := clampRange ranges pc s0 (pc + contextByteSize)
  fwdSkip insn pc (pc - se.1) se.1

/-- `r` is reachable from `s` by stepping through instruction sizes: the
"instruction boundary" notion of the claim. -/
inductive InsnChain (insn : Nat → Option Nat) : Nat → Nat → Prop
  | refl (s : Nat) : InsnChain insn s s
  | step {s t sz : Nat} : InsnChain insn s t → insn t = some sz →
      InsnChain insn s (t + sz)

theorem insnChain_trans {insn : Nat → Option Nat} {a b c : Nat}
    (h₁ : InsnChain insn a b) (h₂ : InsnChain insn b c) :
    InsnChain insn a c := by
  induction h₂ with
  | refl => exact h₁
  | step _ hsz ih => exact InsnChain.step ih hsz

theorem fwdSkip_spec (insn : Nat → Option Nat) (pc : Nat)
    (htot : ∀ a, ∃ sz, insn a = some sz ∧ 0 < sz) :
    ∀ fuel s, s ≤ pc → pc - s ≤ fuel + contextByteSize →
      InsnChain insn s (fwdSkip insn pc fuel s)
      ∧ fwdSkip insn pc fuel s ≤ pc
      ∧ (pc - fwdSkip insn pc fuel s ≤ contextByteSize
        ∨ (contextByteSize < pc - fwdSkip insn pc fuel s
           ∧ ∃ sz, insn (fwdSkip insn pc fuel s) = some sz
             ∧ pc - (fwdSkip insn pc fuel s + sz) < contextByteSize)) := by
  intro fuel
  induction fuel with
  | zero =>
    intro s hle hfuel
    refine ⟨InsnChain.refl s, hle, Or.inl ?_⟩
    simpa using hfuel
  | succ fuel ih =>
    intro s hle hfuel
    by_cases hguard : contextByteSize < pc - s
    · obtain ⟨sz, hsz, hpos⟩ := htot s
      by_cases hbreak : pc - (s + sz) < contextByteSize
      · have hr : fwdSkip insn pc (fuel + 1) s = s := by
          simp [fwdSkip, if_pos hguard, hsz, if_pos hbreak]
        rw [hr]
        exact ⟨InsnChain.refl s, hle, Or.inr ⟨hguard, sz, hsz, hbreak⟩⟩
      · have hr : fwdSkip insn pc (fuel + 1) s
            = fwdSkip insn pc fuel (s + sz) := by
          simp [fwdSkip, if_pos hguard, hsz, if_neg hbreak]
        have hle' : s + sz ≤ pc := by
          unfold contextByteSize at hbreak hguard; omega
        have hfuel' : pc - (s + sz) ≤ fuel + contextByteSize := by
          unfold contextByteSize at hfuel hbreak ⊢; omega
        obtain ⟨hchain, hrle, hdisj⟩ := ih (s + sz) hle' hfuel'
        rw [hr]
        exact ⟨insnChain_trans (InsnChain.step (InsnChain.refl s) hsz) hchain,
          hrle, hdisj⟩
    · have hr : fwdSkip insn pc (fuel + 1) s = s := by
        simp [fwdSkip, if_neg hguard]
      rw [hr]
      exact ⟨InsnChain.refl s, hle, Or.inl (by omega)⟩

/-- Claim C7 (amended): with line-map entries at `pc-100` and `pc-8` (and no
entry nearer below `pc`), the backward walk lands on `pc-100`, and the
forward skip then advances by real instruction sizes while the remaining
distance to `pc` exceeds 24, stopping on an instruction boundary whose
distance to `pc` is less than `24` plus the size of the instruction there
(in particular not `pc-100`, instruction sizes being at most 24) — but not
necessarily within 24 bytes. -/
theorem C7_disassembly_anchor :
    ∀ (pc : Nat) (insn : Nat → Option Nat),
      100 ≤ pc →
      (∀ a, ∃ sz, insn a = some sz ∧ 0 < sz ∧ sz ≤ contextByteSize) →
      backWalk [pc - 100, pc - 8] pc = some (pc - 100)
      ∧ InsnChain insn (pc - 100) (disasmStartPC [pc - 100, pc - 8] [] insn pc)
      ∧ (∃ sz, insn (disasmStartPC [pc - 100, pc - 8] [] insn pc) = some sz
          ∧ pc - disasmStartPC [pc - 100, pc - 8] [] insn pc
              < contextByteSize + sz)
      ∧ disasmStartPC [pc - 100, pc - 8] [] insn pc ≠ pc - 100
      ∧ (pc - disasmStartPC [pc - 100, pc - 8] [] insn pc ≤ contextByteSize
        ∨ ∃ sz, insn (disasmStartPC [pc - 100, pc - 8] [] insn pc) = some sz
            ∧ pc - (disasmStartPC [pc - 100, pc - 8] [] insn pc + sz)
                < contextByteSize) := by
  intro pc insn hpc hinsn
  have hback : backWalk [pc - 100, pc - 8] pc = some (pc - 100) := by
    have h₁ : decide (pc - 100 ≤ pc) = true := by simp
    have h₂ : decide (pc - 8 ≤ pc) = true := by simp
    simp only [backWalk, List.filter, h₁, h₂, List.reverse_cons,
      List.reverse_nil, List.nil_append, List.cons_append]
    rw [show ∀ a b, backWalkGo pc [a, b]
        = (if contextByteSize ≤ pc - a then some a else backWalkGo pc [b])
      from fun a b => rfl]
    rw [if_neg (by unfold contextByteSize; omega)]
    rfl
  have hd : disasmStartPC [pc - 100, pc - 8] [] insn pc
      = fwdSkip insn pc (pc - (pc - 100)) (pc - 100) := by
    simp [disasmStartPC, startPCInit, hback, clampRange, predEntry]
  obtain ⟨hchain, hle, hdisj⟩ := fwdSkip_spec insn pc
    (fun a => by obtain ⟨sz, h₁, h₂, _⟩ := hinsn a; exact ⟨sz, h₁, h₂⟩)
    (pc - (pc - 100)) (pc - 100) (Nat.sub_le _ _)
    (by unfold contextByteSize; omega)
  rw [hd]
  obtain ⟨sz, hsz, hpos, hsz24⟩ := hinsn (fwdSkip insn pc (pc - (pc - 100))
    (pc - 100))
  refine ⟨hback, hchain, ⟨sz, hsz, ?_⟩, ?_, ?_⟩
  · rcases hdisj with hsmall | ⟨hbig, sz', hsz', hnear⟩
    · unfold contextByteSize at hsmall ⊢; omega
    · rw [hsz] at hsz'
      cases hsz'
      unfold contextByteSize at hbig hnear hsz24 ⊢; omega
  · intro heq
    rw [heq] at hdisj
    rcases hdisj with hsmall | ⟨hbig, sz', hsz', hnear⟩
    · unfold contextByteSize at hsmall; omega
    · have hsz'24 : sz' ≤ contextByteSize := by
        obtain ⟨sz'', h₁, _, h₃⟩ := hinsn (pc - 100)
        rw [hsz'] at h₁; cases h₁; exact h₃
      unfold contextByteSize at hbig hnear hsz'24; omega
  · rcases hdisj with hsmall | ⟨_, sz', hsz', hnear⟩
    · exact Or.inl hsmall
    · exact Or.inr ⟨sz', hsz', hnear⟩

/-- Counterexample to C7 as stated: with line-map entries at `pc-100` and
`pc-8` (`pc = 1000`) and uniform 8-byte instructions, the anchor after the
backward walk and the forward skip is `972`, at distance 28 from `pc` —
NOT within 24 bytes (`context_byte_size`). -/
theorem C7_disassembly_anchor_counterexample :
    disasmStartPC [900, 992] [] (fun _ => some 8) 1000 = 972
    ∧ ¬(1000 - disasmStartPC [900, 992] [] (fun _ => some 8) 1000 ≤ 24) := by
  refine ⟨by decide, by decide⟩

/-- Witness for C7: the anchor theorem applied at `pc = 1000` with uniform
4-byte instructions (where the final distance is exactly 24). -/
theorem C7_disassembly_anchor_witness :
    backWalk [1000 - 100, 1000 - 8] 1000 = some (1000 - 100)
    ∧ InsnChain (fun _ => some 4) (1000 - 100)
        (disasmStartPC [1000 - 100, 1000 - 8] [] (fun _ => some 4) 1000)
    ∧ (∃ sz, (fun (_ : Nat) => some 4)
          (disasmStartPC [1000 - 100, 1000 - 8] [] (fun _ => some 4) 1000)
          = some sz
        ∧ 1000 - disasmStartPC [1000 - 100, 1000 - 8] [] (fun _ => some 4)
            1000 < contextByteSize + sz)
    ∧ disasmStartPC [1000 - 100, 1000 - 8] [] (fun _ => some 4) 1000
        ≠ 1000 - 100
    ∧ (1000 - disasmStartPC [1000 - 100, 1000 - 8] [] (fun _ => some 4) 1000
          ≤ contextByteSize
      ∨ ∃ sz, (fun (_ : Nat) => some 4)
            (disasmStartPC [1000 - 100, 1000 - 8] [] (fun _ => some 4) 1000)
            = some sz
          ∧ 1000 - (disasmStartPC [1000 - 100, 1000 - 8] [] (fun _ => some 4)
              1000 + sz) < contextByteSize) :=
  C7_disassembly_anchor 1000 (fun _ => some 4) (by decide)
    (fun _ => ⟨4, rfl, by decide, by decide⟩)

/-! ## `print_wavefronts` (debug_agent.cpp:555-759)

Two aspects are embedded: the code-object selection for a stopped wave's
`pc` (debug_agent.cpp:640-646: predecessor of `pc` in the load-address-keyed
`code_object_map`, accepted iff `pc - load_address <= mem_size`) together
with the shape of the per-wave report (registers and local memory always;
a disassembly block iff a code object was found, debug_agent.cpp:739-755);
and the non-reentrant trylock guard at the function's head
(debug_agent.cpp:558-563). -/

def findCodeObject (comap : List (Nat × Nat)) (pc : Nat) :
    Option (Nat × Nat) :=
  match predEntry comap pc with
  | some (la, ms) => if pc - la ≤ ms then some (la, ms) else none
  | none => none

structure WaveReport where
  hasRegisters : Bool
  hasLocalMemory : Bool
  disassembly : Option (Nat × Nat)
deriving DecidableEq, Repr

/-- The report body for one stopped wave at program counter `pc`. -/
def waveReport (comap : List (Nat × Nat)) (pc : Nat) : WaveReport :=
  ⟨true, true, findCodeObject comap pc⟩

/-- Claim C10: a code object is selected for disassembly iff the
code-object map has a greatest `load_address ≤ pc` with
`pc - load_address ≤ mem_size`; the boundary `pc = load_address + mem_size`
is included; and with no such object the wave's report has registers and
local memory but no disassembly block. -/
theorem C10_code_object_selection :
    ∀ (comap : List (Nat × Nat)) (pc : Nat), KeysSorted comap →
      (∀ la ms, (waveReport comap pc).disassembly = some (la, ms)
        ↔ (la, ms) ∈ comap ∧ la ≤ pc
          ∧ (∀ q ∈ comap, q.1 ≤ pc → q.1 ≤ la) ∧ pc - la ≤ ms)
      ∧ (∀ la ms, predEntry comap (la + ms) = some (la, ms) →
          (waveReport comap (la + ms)).disassembly = some (la, ms))
      ∧ ((waveReport comap pc).disassembly = none →
          waveReport comap pc = ⟨true, true, none⟩) := by
  intro comap pc hs
  refine ⟨?_, ?_, ?_⟩
  · intro la ms
    show findCodeObject comap pc = some (la, ms) ↔ _
    cases h : predEntry comap pc with
    | none =>
      simp only [findCodeObject, h]
      constructor
      · intro hfalse; cases hfalse
      · rintro ⟨hmem, hle, _, _⟩
        exact absurd hle (not_le.mpr (predEntry_none h (la, ms) hmem))
    | some p =>
      obtain ⟨la', ms'⟩ := p
      by_cases hin : pc - la' ≤ ms'
      · simp only [findCodeObject, h, if_pos hin]
        constructor
        · intro hsome
          cases hsome
          obtain ⟨hmem, hle, hmax⟩ := (predEntry_eq_some_iff hs _).mp h
          exact ⟨hmem, hle, hmax, hin⟩
        · rintro ⟨hmem, hle, hmax, hin'⟩
          have h2 : predEntry comap pc = some (la, ms) :=
            (predEntry_eq_some_iff hs _).mpr ⟨hmem, hle, hmax⟩
          rw [h] at h2
          exact h2
      · simp only [findCodeObject, h, if_neg hin]
        constructor
        · intro hfalse; cases hfalse
        · rintro ⟨hmem, hle, hmax, hin'⟩
          have h2 : predEntry comap pc = some (la, ms) :=
            (predEntry_eq_some_iff hs _).mpr ⟨hmem, hle, hmax⟩
          rw [h] at h2
          cases h2
          exact absurd hin' hin
  · intro la ms h
    show findCodeObject comap (la + ms) = some (la, ms)
    simp only [findCodeObject, h]
    rw [if_pos (by omega)]
  · intro h
    show waveReport comap pc = ⟨true, true, none⟩
    unfold waveReport at h ⊢
    simp only at h
    rw [h]

/-- Witness for C10: the selection characterisation on a concrete one-object
map, at a `pc` inside the object. -/
theorem C10_code_object_selection_witness :
    (waveReport [(4096, 256)] 4100).disassembly = some (4096, 256) :=
  ((C10_code_object_selection [(4096, 256)] 4100
      (by simp [KeysSorted])).1 4096 256).mpr
    ⟨by simp, by omega, by simp, by omega⟩

/-- One invocation of `print_wavefronts`, as seen from the static trylock at
debug_agent.cpp:558-563: `lockHeld` says whether another invocation holds
the non-reentrant lock at entry.  A failed trylock returns immediately,
acquiring nothing and emitting nothing (no wave or code-object call is
made); otherwise the invocation emits one report: the per-stopped-wave
bodies over the wave list. -/
def printWavefronts (lockHeld : Bool) (comap : List (Nat × Nat))
    (pcs : List Nat) : Bool × List (List WaveReport) :=
  if lockHeld then (false, [])
  else (true, [pcs.map (waveReport comap)])

/-- Claim C8: an invocation made while another holds the non-reentrant lock
returns immediately with no report and no wave/code-object operation (its
result does not depend on the process state at all), so two concurrent
requests — the first holding the lock while the second runs — produce
exactly one report. -/
theorem C8_print_wavefronts_reentry :
    ∀ (comap comap' : List (Nat × Nat)) (pcs pcs' : List Nat),
      printWavefronts true comap pcs = (false, [])
      ∧ printWavefronts true comap pcs = printWavefronts true comap' pcs'
      ∧ ((printWavefronts false comap pcs).2
          ++ (printWavefronts true comap pcs').2).length = 1 := by
  intro comap comap' pcs pcs'
  refine ⟨rfl, rfl, by simp [printWavefronts]⟩

/-! ## `stop_all_wavefronts` (debug_agent.cpp:426-553)

The convergence loop is embedded against a family of environments in which
each live wave eventually transitions and an event is delivered for each
transition.  A wave's behaviour is fixed:

* `stopped` — its state already reports `STOP` when queried;
* `singleStep` — its state reports `SINGLE_STEP` (left alone);
* `running d` — running; a stop request succeeds and the matching
  `WAVE_STOP` event becomes pending after `d` further iterations;
* `dying d` — running; the stop request succeeds but the wave dies, its
  `WAVE_COMMAND_TERMINATED` event pending after `d` iterations;
* `dead` — the wave already died but still appears in the (stale) wave
  list; `amd_dbgapi_wave_get_info` answers `INVALID_WAVE_ID` and the wave
  is skipped.

The loop state carries the two sets of the code plus the processed
termination events (`died`, so a dead wave keeps being skipped) and a log of
the successful `amd_dbgapi_wave_stop` calls (`requested`). -/

inductive WBeh where
  | stopped
  | singleStep
  | running (d : Nat)
  | dying (d : Nat)
  | dead
deriving DecidableEq, Repr

structure Wave where
  id : Nat
  beh : WBeh
deriving DecidableEq, Repr

structure SimSt where
  alreadyStopped : List Nat
  waiting : List (Nat × Nat)
  died : List Nat
  requested : List Nat
deriving DecidableEq, Repr

/-- The behaviour of the wave with a given id (`dead` when the id is not in
the wave list). -/
def behOf (waves : List Wave) (i : Nat) : WBeh :=
  match waves.find? (fun w => decide (w.id = i)) with
  | some w => w.beh
  | none => WBeh.dead

def isRunningB : WBeh → Bool
  | WBeh.running _ => true
  | _ => false

def isDyingB : WBeh → Bool
  | WBeh.dying _ => true
  | _ => false

def isStopReqB (b : WBeh) : Bool := isRunningB b || isDyingB b

def delayOf : WBeh → Nat
  | WBeh.running d => d
  | WBeh.dying d => d
  | _ => 0

/-- The event drain at the head of each iteration (debug_agent.cpp:438-478):
all pending events are consumed and marked processed; a `WAVE_STOP` moves
its wave from `waiting_to_stop` to `already_stopped`, a
`WAVE_COMMAND_TERMINATED` just removes it.  An entry's countdown says how
many more drains happen before its event is pending. -/
def drain (waves : List Wave) (s : SimSt) : SimSt :=
  { alreadyStopped := s.alreadyStopped
      ++ ((s.waiting.filter fun p =>
        decide (p.2 = 0) && isRunningB (behOf waves p.1)).map Prod.fst),
    waiting := (s.waiting.filter fun p => decide (p.2 ≠ 0)).map
      fun p => (p.1, p.2 - 1),
    died := s.died
      ++ ((s.waiting.filter fun p =>
        decide (p.2 = 0) && isDyingB (behOf waves p.1)).map Prod.fst),
    requested := s.requested }

def waitingIds (s : SimSt) : List Nat := s.waiting.map Prod.fst

/-- The body of the enumeration loop for one wave
(debug_agent.cpp:486-544): skip waves already stopped, pending, or dead;
record a wave whose state reports `STOP`; leave a single-stepping wave
alone; otherwise issue `wave_stop` (logged in `requested`) and add the wave
to `waiting_to_stop` with its event delay. -/
def enumStep (s : SimSt) (w : Wave) : SimSt :=
  if w.id ∈ s.alreadyStopped then s
  else if w.id ∈ waitingIds s then s
  else if w.id ∈ s.died then s
  else
    match w.beh with
    | WBeh.stopped => { s with alreadyStopped := s.alreadyStopped ++ [w.id] }
    | WBeh.singleStep => s
    | WBeh.dead => s
    | WBeh.running d =>
      { s with requested := s.requested ++ [w.id],
               waiting := s.waiting ++ [(w.id, d)] }
    | WBeh.dying d =>
      { s with requested := s.requested ++ [w.id],
               waiting := s.waiting ++ [(w.id, d)] }

def enumerate (waves : List Wave) (s : SimSt) : SimSt :=
  waves.foldl enumStep s

/-- One iteration of the outer loop: drain events, then enumerate the wave
list. -/
def stopAllIter (waves : List Wave) (s : SimSt) : SimSt :=
  enumerate waves (drain waves s)

/-- The outer do-style loop (debug_agent.cpp:434-550): iterate until
`waiting_to_stop` is empty; fuel-capped (`none` = fuel ran out before
convergence; the convergence theorem exhibits a sufficient fuel). -/
def stopAllGo (waves : List Wave) : Nat → SimSt → Option SimSt
  | 0, _ => none
  | fuel + 1, s =>
    if (stopAllIter waves s).waiting = [] then some (stopAllIter waves s)
    else stopAllGo waves fuel (stopAllIter waves s)

def stopAllWavefronts (waves : List Wave) (fuel : Nat) : Option SimSt :=
  stopAllGo waves fuel ⟨[], [], [], []⟩

/-! ### Invariants of the convergence loop -/

/-- The enumeration loop leaves this wave's handling unchanged. -/
def SkipCond (s : SimSt) (w : Wave) : Prop :=
  w.id ∈ s.alreadyStopped ∨ w.id ∈ waitingIds s ∨ w.id ∈ s.died
  ∨ w.beh = WBeh.singleStep ∨ w.beh = WBeh.dead

def Settled (waves : List Wave) (s : SimSt) : Prop :=
  ∀ w ∈ waves, SkipCond s w

/-- Every pending stop request belongs to a running or dying wave. -/
def WaitingWF (waves : List Wave) (s : SimSt) : Prop :=
  ∀ p ∈ s.waiting,
    isRunningB (behOf waves p.1) = true ∨ isDyingB (behOf waves p.1) = true

/-- The per-wave facts the claim asserts, as a loop invariant. -/
def WaveInv (waves : List Wave) (s : SimSt) : Prop :=
  ∀ w ∈ waves,
    (w.beh = WBeh.stopped →
      w.id ∈ s.alreadyStopped ∧ w.id ∉ s.requested)
    ∧ (w.beh = WBeh.singleStep →
      w.id ∉ s.alreadyStopped ∧ w.id ∉ waitingIds s ∧ w.id ∉ s.requested)
    ∧ (∀ d, w.beh = WBeh.running d →
      w.id ∈ s.requested ∧ (w.id ∈ waitingIds s ∨ w.id ∈ s.alreadyStopped))
    ∧ (∀ d, w.beh = WBeh.dying d →
      w.id ∈ s.requested ∧ (w.id ∈ waitingIds s ∨ w.id ∈ s.died)
        ∧ w.id ∉ s.alreadyStopped)
    ∧ (w.beh = WBeh.dead →
      w.id ∉ s.alreadyStopped ∧ w.id ∉ waitingIds s ∧ w.id ∉ s.requested)

def Inv (waves : List Wave) (s : SimSt) : Prop :=
  Settled waves s ∧ WaitingWF waves s ∧ WaveInv waves s

theorem behOf_eq {waves : List Wave} (hnd : (waves.map Wave.id).Nodup)
    {w : Wave} (hw : w ∈ waves) : behOf waves w.id = w.beh := by
  induction waves with
  | nil => simp at hw
  | cons u rest ih =>
    rw [List.map_cons, List.nodup_cons] at hnd
    rcases List.mem_cons.mp hw with rfl | hw'
    · rw [behOf, List.find?_cons_of_pos _ (by simp)]
    · have hne : u.id ≠ w.id := by
        intro he
        exact hnd.1 (he ▸ List.mem_map.mpr ⟨w, hw', rfl⟩)
      rw [behOf, List.find?_cons_of_neg _ (by simp [hne])]
      exact ih hnd.2 hw'

theorem wave_id_inj {waves : List Wave} (hnd : (waves.map Wave.id).Nodup) :
    ∀ v ∈ waves, ∀ w ∈ waves, v.id = w.id → v = w := by
  induction waves with
  | nil => simp
  | cons u rest ih =>
    rw [List.map_cons, List.nodup_cons] at hnd
    intro v hv w hw hvw
    rcases List.mem_cons.mp hv with rfl | hv' <;>
      rcases List.mem_cons.mp hw with rfl | hw'
    · rfl
    · exact absurd (hvw ▸ List.mem_map.mpr ⟨w, hw', rfl⟩) hnd.1
    · exact absurd (hvw ▸ List.mem_map.mpr ⟨v, hv', rfl⟩) hnd.1
    · exact ih hnd.2 v hv' w hw' hvw

theorem enumStep_skip {s : SimSt} {w : Wave} (h : SkipCond s w) :
    enumStep s w = s := by
  unfold enumStep
  by_cases h₁ : w.id ∈ s.alreadyStopped
  · rw [if_pos h₁]
  · rw [if_neg h₁]
    by_cases h₂ : w.id ∈ waitingIds s
    · rw [if_pos h₂]
    · rw [if_neg h₂]
      by_cases h₃ : w.id ∈ s.died
      · rw [if_pos h₃]
      · rw [if_neg h₃]
        rcases h with h | h | h | h | h
        · exact absurd h h₁
        · exact absurd h h₂
        · exact absurd h h₃
        · rw [h]
        · rw [h]

theorem foldl_enumStep_skip {s : SimSt} :
    ∀ ws : List Wave, (∀ w ∈ ws, SkipCond s w) → ws.foldl enumStep s = s := by
  intro ws
  induction ws with
  | nil => intro _; rfl
  | cons w rest ih =>
    intro h
    rw [List.foldl_cons, enumStep_skip (h w (List.mem_cons_self _ _))]
    exact ih fun v hv => h v (List.mem_cons_of_mem _ hv)

theorem enumerate_settled {waves : List Wave} {s : SimSt}
    (h : Settled waves s) : enumerate waves s = s :=
  foldl_enumStep_skip waves h


def Fresh3 (ws : List Wave) (s : SimSt) : Prop :=
  ∀ w ∈ ws, w.id ∉ s.alreadyStopped ∧ w.id ∉ waitingIds s ∧ w.id ∉ s.died

theorem enumerate_closed :
    ∀ (ws : List Wave) (s : SimSt), Fresh3 ws s → (ws.map Wave.id).Nodup →
      ws.foldl enumStep s =
        ⟨s.alreadyStopped
            ++ (ws.filter fun w => decide (w.beh = WBeh.stopped)).map Wave.id,
          s.waiting
            ++ ((ws.filter fun w => isStopReqB w.beh).map
              fun w => (w.id, delayOf w.beh)),
          s.died,
          s.requested
            ++ (ws.filter fun w => isStopReqB w.beh).map Wave.id⟩ := by
  intro ws
  induction ws with
  | nil =>
    intro s _ _
    cases s
    simp
  | cons w rest ih =>
    intro s hf hnd
    rw [List.map_cons, List.nodup_cons] at hnd
    obtain ⟨h₁, h₂, h₃⟩ := hf w (List.mem_cons_self _ _)
    have hfr := fun v hv => hf v (List.mem_cons_of_mem _ hv)
    have hwid : ∀ v ∈ rest, v.id ≠ w.id := by
      intro v hv he
      exact hnd.1 (he ▸ List.mem_map.mpr ⟨v, hv, rfl⟩)
    rw [List.foldl_cons]
    cases hb : w.beh with
    | stopped =>
      have hns : enumStep s w
          = { s with alreadyStopped := s.alreadyStopped ++ [w.id] } := by
        rw [enumStep, if_neg h₁, if_neg h₂, if_neg h₃, hb]
      have hfr₁ : Fresh3 rest
          { s with alreadyStopped := s.alreadyStopped ++ [w.id] } := by
        intro v hv
        obtain ⟨g₁, g₂, g₃⟩ := hfr v hv
        refine ⟨?_, g₂, g₃⟩
        simp only [List.mem_append, List.mem_singleton]
        rintro (h | h)
        · exact g₁ h
        · exact hwid v hv h
      rw [hns, ih _ hfr₁ hnd.2]
      simp [List.filter_cons, hb, isStopReqB, isRunningB, isDyingB]
    | singleStep =>
      have hns : enumStep s w = s := by
        rw [enumStep, if_neg h₁, if_neg h₂, if_neg h₃, hb]
      rw [hns, ih _ hfr hnd.2]
      simp [List.filter_cons, hb, isStopReqB, isRunningB, isDyingB]
    | dead =>
      have hns : enumStep s w = s := by
        rw [enumStep, if_neg h₁, if_neg h₂, if_neg h₃, hb]
      rw [hns, ih _ hfr hnd.2]
      simp [List.filter_cons, hb, isStopReqB, isRunningB, isDyingB]
    | running d =>
      have hns : enumStep s w
          = { s with requested := s.requested ++ [w.id],
                     waiting := s.waiting ++ [(w.id, d)] } := by
        rw [enumStep, if_neg h₁, if_neg h₂, if_neg h₃, hb]
      have hfr₁ : Fresh3 rest
          { s with requested := s.requested ++ [w.id],
                   waiting := s.waiting ++ [(w.id, d)] } := by
        intro v hv
        obtain ⟨g₁, g₂, g₃⟩ := hfr v hv
        refine ⟨g₁, ?_, g₃⟩
        simp only [waitingIds, List.map_append, List.mem_append] at g₂ ⊢
        rintro (h | h)
        · exact g₂ h
        · simp at h
          exact hwid v hv h
      rw [hns, ih _ hfr₁ hnd.2]
      simp [List.filter_cons, hb, isStopReqB, isRunningB, isDyingB, delayOf]
    | dying d =>
      have hns : enumStep s w
          = { s with requested := s.requested ++ [w.id],
                     waiting := s.waiting ++ [(w.id, d)] } := by
        rw [enumStep, if_neg h₁, if_neg h₂, if_neg h₃, hb]
      have hfr₁ : Fresh3 rest
          { s with requested := s.requested ++ [w.id],
                   waiting := s.waiting ++ [(w.id, d)] } := by
        intro v hv
        obtain ⟨g₁, g₂, g₃⟩ := hfr v hv
        refine ⟨g₁, ?_, g₃⟩
        simp only [waitingIds, List.map_append, List.mem_append] at g₂ ⊢
        rintro (h | h)
        · exact g₂ h
        · simp at h
          exact hwid v hv h
      rw [hns, ih _ hfr₁ hnd.2]
      simp [List.filter_cons, hb, isStopReqB, isRunningB, isDyingB, delayOf]


theorem mem_filter_map_id {waves : List Wave}
    (hnd : (waves.map Wave.id).Nodup) (f : Wave → Bool) {w : Wave}
    (hw : w ∈ waves) :
    w.id ∈ (waves.filter f).map Wave.id ↔ f w = true := by
  constructor
  · intro h
    obtain ⟨v, hv, hvid⟩ := List.mem_map.mp h
    obtain ⟨hv₁, hv₂⟩ := List.mem_filter.mp hv
    rwa [wave_id_inj hnd v hv₁ w hw hvid] at hv₂
  · intro h
    exact List.mem_map.mpr ⟨w, List.mem_filter.mpr ⟨hw, h⟩, rfl⟩

theorem inv_first (waves : List Wave)
    (hnd : (waves.map Wave.id).Nodup) :
    Inv waves (enumerate waves ⟨[], [], [], []⟩) := by
  have hcl := enumerate_closed waves ⟨[], [], [], []⟩
    (by intro w hw; simp [waitingIds]) hnd
  rw [enumerate, hcl]
  have hwid : waitingIds
      (⟨[] ++ (waves.filter fun w => decide (w.beh = WBeh.stopped)).map Wave.id,
        [] ++ ((waves.filter fun w => isStopReqB w.beh).map
          fun w => (w.id, delayOf w.beh)),
        [], [] ++ (waves.filter fun w => isStopReqB w.beh).map Wave.id⟩ : SimSt)
      = (waves.filter fun w => isStopReqB w.beh).map Wave.id := by
    simp [waitingIds, List.map_map]
  refine ⟨?_, ?_, ?_⟩
  · intro w hw
    unfold SkipCond
    rw [hwid]
    cases hb : w.beh
    · left
      simp only [List.nil_append]
      exact (mem_filter_map_id hnd _ hw).mpr (by simp [hb])
    · right; right; right; left; rfl
    · right; left
      exact (mem_filter_map_id hnd _ hw).mpr (by simp [hb, isStopReqB, isRunningB])
    · right; left
      exact (mem_filter_map_id hnd _ hw).mpr
        (by simp [hb, isStopReqB, isRunningB, isDyingB])
    · right; right; right; right; rfl
  · intro p hp
    simp only [List.nil_append] at hp
    obtain ⟨v, hv, hvp⟩ := List.mem_map.mp hp
    obtain ⟨hv₁, hv₂⟩ := List.mem_filter.mp hv
    have hb : behOf waves p.1 = v.beh := by
      rw [← hvp]
      exact behOf_eq hnd hv₁
    rw [hb]
    rw [isStopReqB, Bool.or_eq_true] at hv₂
    exact hv₂
  · intro w hw
    have hstop := mem_filter_map_id hnd
      (fun w => decide (w.beh = WBeh.stopped)) hw
    have hreq := mem_filter_map_id hnd (fun w => isStopReqB w.beh) hw
    refine ⟨?_, ?_, ?_, ?_, ?_⟩
    · intro hb
      simp only [List.nil_append]
      constructor
      · exact hstop.mpr (by simp [hb])
      · intro hmem
        have := hreq.mp hmem
        simp [hb, isStopReqB, isRunningB, isDyingB] at this
    · intro hb
      rw [hwid]
      simp only [List.nil_append]
      refine ⟨?_, ?_, ?_⟩
      · intro hmem
        have := hstop.mp hmem
        simp [hb] at this
      · intro hmem
        have := hreq.mp hmem
        simp [hb, isStopReqB, isRunningB, isDyingB] at this
      · intro hmem
        have := hreq.mp hmem
        simp [hb, isStopReqB, isRunningB, isDyingB] at this
    · intro d hb
      rw [hwid]
      simp only [List.nil_append]
      constructor
      · exact hreq.mpr (by simp [hb, isStopReqB, isRunningB])
      · left
        exact hreq.mpr (by simp [hb, isStopReqB, isRunningB])
    · intro d hb
      rw [hwid]
      simp only [List.nil_append]
      refine ⟨?_, Or.inl ?_, ?_⟩
      · exact hreq.mpr (by simp [hb, isStopReqB, isRunningB, isDyingB])
      · exact hreq.mpr (by simp [hb, isStopReqB, isRunningB, isDyingB])
      · intro hmem
        have := hstop.mp hmem
        simp [hb] at this
    · intro hb
      rw [hwid]
      simp only [List.nil_append]
      refine ⟨?_, ?_, ?_⟩
      · intro hmem
        have := hstop.mp hmem
        simp [hb] at this
      · intro hmem
        have := hreq.mp hmem
        simp [hb, isStopReqB, isRunningB, isDyingB] at this
      · intro hmem
        have := hreq.mp hmem
        simp [hb, isStopReqB, isRunningB, isDyingB] at this


theorem mem_waitingIds {s : SimSt} {i : Nat} (h : i ∈ waitingIds s) :
    ∃ c, (i, c) ∈ s.waiting := by
  obtain ⟨p, hp, hpi⟩ := List.mem_map.mp h
  exact ⟨p.2, by rwa [← hpi]⟩

theorem waitingIds_drain {waves : List Wave} {s : SimSt} {i : Nat}
    (h : i ∈ waitingIds (drain waves s)) : i ∈ waitingIds s := by
  obtain ⟨p, hp, hpi⟩ := List.mem_map.mp h
  obtain ⟨q, hq, hqp⟩ := List.mem_map.mp hp
  obtain ⟨hq₁, _⟩ := List.mem_filter.mp hq
  refine List.mem_map.mpr ⟨q, hq₁, ?_⟩
  rw [← hpi, ← hqp]

theorem drain_keep {waves : List Wave} {s : SimSt} {i c : Nat}
    (h : (i, c) ∈ s.waiting) (hc : c ≠ 0) :
    i ∈ waitingIds (drain waves s) :=
  List.mem_map.mpr ⟨(i, c - 1),
    List.mem_map.mpr ⟨(i, c), List.mem_filter.mpr ⟨h, by simp [hc]⟩, rfl⟩, rfl⟩

theorem drain_deliver_run {waves : List Wave} {s : SimSt} {i : Nat}
    (h : (i, 0) ∈ s.waiting) (hr : isRunningB (behOf waves i) = true) :
    i ∈ (drain waves s).alreadyStopped := by
  refine List.mem_append_right _ (List.mem_map.mpr ⟨(i, 0), ?_, rfl⟩)
  exact List.mem_filter.mpr ⟨h, by simp [hr]⟩

theorem drain_deliver_die {waves : List Wave} {s : SimSt} {i : Nat}
    (h : (i, 0) ∈ s.waiting) (hd : isDyingB (behOf waves i) = true) :
    i ∈ (drain waves s).died := by
  refine List.mem_append_right _ (List.mem_map.mpr ⟨(i, 0), ?_, rfl⟩)
  exact List.mem_filter.mpr ⟨h, by simp [hd]⟩

theorem drain_alreadyStopped_cases {waves : List Wave} {s : SimSt} {i : Nat}
    (h : i ∈ (drain waves s).alreadyStopped) :
    i ∈ s.alreadyStopped ∨ isRunningB (behOf waves i) = true := by
  rcases List.mem_append.mp h with h' | h'
  · exact Or.inl h'
  · obtain ⟨p, hp, hpi⟩ := List.mem_map.mp h'
    obtain ⟨_, hcond⟩ := List.mem_filter.mp hp
    rw [Bool.and_eq_true] at hcond
    right
    rw [← hpi]
    exact hcond.2

theorem drain_settled {waves : List Wave} {s : SimSt}
    (hwf : WaitingWF waves s) (hset : Settled waves s) :
    Settled waves (drain waves s) := by
  intro w hw
  rcases hset w hw with h | h | h | h | h
  · exact Or.inl (List.mem_append_left _ h)
  · obtain ⟨c, hc⟩ := mem_waitingIds h
    by_cases hz : c = 0
    · subst hz
      rcases hwf (w.id, 0) hc with hr | hd
      · exact Or.inl (drain_deliver_run hc hr)
      · exact Or.inr (Or.inr (Or.inl (drain_deliver_die hc hd)))
    · exact Or.inr (Or.inl (drain_keep hc hz))
  · exact Or.inr (Or.inr (Or.inl (List.mem_append_left _ h)))
  · exact Or.inr (Or.inr (Or.inr (Or.inl h)))
  · exact Or.inr (Or.inr (Or.inr (Or.inr h)))



theorem drain_wf {waves : List Wave} {s : SimSt} (hwf : WaitingWF waves s) :
    WaitingWF waves (drain waves s) := by
  intro p hp
  obtain ⟨q, hq, hqp⟩ := List.mem_map.mp hp
  obtain ⟨hq₁, _⟩ := List.mem_filter.mp hq
  rw [← hqp]
  exact hwf q hq₁

theorem drain_waveInv {waves : List Wave} (hnd : (waves.map Wave.id).Nodup)
    {s : SimSt} (hwi : WaveInv waves s) :
    WaveInv waves (drain waves s) := by
  intro w hw
  obtain ⟨hstop, hss, hrun, hdie, hdead⟩ := hwi w hw
  have hbw := behOf_eq hnd hw
  refine ⟨?_, ?_, ?_, ?_, ?_⟩
  · intro hb
    obtain ⟨h₁, h₂⟩ := hstop hb
    exact ⟨List.mem_append_left _ h₁, h₂⟩
  · intro hb
    obtain ⟨h₁, h₂, h₃⟩ := hss hb
    refine ⟨?_, fun hmem => h₂ (waitingIds_drain hmem), h₃⟩
    intro hmem
    rcases drain_alreadyStopped_cases hmem with h' | h'
    · exact h₁ h'
    · rw [hbw, hb] at h'
      simp [isRunningB] at h'
  · intro d hb
    obtain ⟨h₁, h₂⟩ := hrun d hb
    refine ⟨h₁, ?_⟩
    rcases h₂ with h' | h'
    · obtain ⟨c, hc⟩ := mem_waitingIds h'
      by_cases hz : c = 0
      · subst hz
        right
        exact drain_deliver_run hc (by rw [hbw, hb]; rfl)
      · left
        exact drain_keep hc hz
    · right
      exact List.mem_append_left _ h'
  · intro d hb
    obtain ⟨h₁, h₂, h₃⟩ := hdie d hb
    refine ⟨h₁, ?_, ?_⟩
    · rcases h₂ with h' | h'
      · obtain ⟨c, hc⟩ := mem_waitingIds h'
        by_cases hz : c = 0
        · subst hz
          right
          exact drain_deliver_die hc (by rw [hbw, hb]; rfl)
        · left
          exact drain_keep hc hz
      · right
        exact List.mem_append_left _ h'
    · intro hmem
      rcases drain_alreadyStopped_cases hmem with h' | h'
      · exact h₃ h'
      · rw [hbw, hb] at h'
        simp [isRunningB] at h'
  · intro hb
    obtain ⟨h₁, h₂, h₃⟩ := hdead hb
    refine ⟨?_, fun hmem => h₂ (waitingIds_drain hmem), h₃⟩
    intro hmem
    rcases drain_alreadyStopped_cases hmem with h' | h'
    · exact h₁ h'
    · rw [hbw, hb] at h'
      simp [isRunningB] at h'

theorem inv_drain {waves : List Wave} (hnd : (waves.map Wave.id).Nodup)
    {s : SimSt} (hi : Inv waves s) : Inv waves (drain waves s) :=
  ⟨drain_settled hi.2.1 hi.1, drain_wf hi.2.1, drain_waveInv hnd hi.2.2⟩

/-- Termination measure: one unit per pending stop request plus its
remaining delay. -/
def waitMeasure (s : SimSt) : Nat := (s.waiting.map fun p => p.2 + 1).sum

theorem sum_dec_le : ∀ l : List (Nat × Nat),
    (((l.filter fun p => decide (p.2 ≠ 0)).map fun p => (p.1, p.2 - 1)).map
      fun p => p.2 + 1).sum ≤ (l.map fun p => p.2 + 1).sum := by
  intro l
  induction l with
  | nil => simp
  | cons p rest ih =>
    by_cases hz : p.2 = 0 <;> simp [List.filter_cons, hz] at ih ⊢ <;> omega

theorem sum_dec_lt : ∀ l : List (Nat × Nat), l ≠ [] →
    (((l.filter fun p => decide (p.2 ≠ 0)).map fun p => (p.1, p.2 - 1)).map
      fun p => p.2 + 1).sum < (l.map fun p => p.2 + 1).sum := by
  intro l hl
  cases l with
  | nil => exact absurd rfl hl
  | cons p rest =>
    have h := sum_dec_le rest
    by_cases hz : p.2 = 0 <;> simp [List.filter_cons, hz] at h ⊢ <;> omega

theorem waitMeasure_drain_lt {waves : List Wave} {s : SimSt}
    (h : s.waiting ≠ []) : waitMeasure (drain waves s) < waitMeasure s :=
  sum_dec_lt s.waiting h

theorem drain_waiting_empty {waves : List Wave} {s : SimSt}
    (h : s.waiting = []) : drain waves s = s := by
  cases s with
  | mk a wq d r =>
    simp only at h
    subst h
    simp [drain]



theorem stopAllGo_waiting {waves : List Wave} :
    ∀ fuel s s', stopAllGo waves fuel s = some s' → s'.waiting = [] := by
  intro fuel
  induction fuel with
  | zero => intro s s' h; cases h
  | succ fuel ih =>
    intro s s' h
    rw [stopAllGo] at h
    by_cases hc : (stopAllIter waves s).waiting = []
    · rw [if_pos hc] at h
      cases h
      exact hc
    · rw [if_neg hc] at h
      exact ih _ _ h

theorem stopAll_conv {waves : List Wave} (hnd : (waves.map Wave.id).Nodup) :
    ∀ n s, Inv waves s → waitMeasure s ≤ n →
      ∃ fuel s', stopAllGo waves fuel s = some s' ∧ Inv waves s'
        ∧ s'.waiting = [] := by
  intro n
  induction n with
  | zero =>
    intro s hi hm
    have hempty : s.waiting = [] := by
      cases hw : s.waiting with
      | nil => rfl
      | cons p rest =>
        unfold waitMeasure at hm
        rw [hw] at hm
        simp at hm
    have hiter : stopAllIter waves s = s := by
      rw [stopAllIter, drain_waiting_empty hempty]
      exact enumerate_settled hi.1
    exact ⟨1, s, by rw [stopAllGo, hiter, if_pos hempty], hi, hempty⟩
  | succ n ih =>
    intro s hi hm
    have hid : Inv waves (drain waves s) := inv_drain hnd hi
    have hiter : stopAllIter waves s = drain waves s := by
      rw [stopAllIter]
      exact enumerate_settled hid.1
    by_cases hc : (drain waves s).waiting = []
    · exact ⟨1, drain waves s, by rw [stopAllGo, hiter, if_pos hc], hid, hc⟩
    · have hne : s.waiting ≠ [] := by
        intro he
        rw [drain_waiting_empty he] at hc
        exact hc he
      have hlt : waitMeasure (drain waves s) < waitMeasure s :=
        waitMeasure_drain_lt hne
      obtain ⟨fuel, s', hgo, hi', hw'⟩ := ih (drain waves s) hid (by omega)
      refine ⟨fuel + 1, s', ?_, hi', hw'⟩
      rw [stopAllGo, hiter, if_neg hc]
      exact hgo



/-- Claim C2: in every environment where each live wave eventually
transitions and its event is delivered, `stop_all_wavefronts` terminates and
exits only with `waiting_to_stop` empty; a wave whose state already reports
`STOP` is in `already_stopped` without ever being stop-requested; a
`SINGLE_STEP` wave is neither stop-requested nor in either set; every other
live wave (running, including those that die while stopping) is issued
`wave_stop` — and on success was added to `waiting_to_stop`, ending in
`already_stopped` when it stops and out of it when it dies — while waves for
which the API answers `INVALID_WAVE_ID` are tolerated and skipped. -/
theorem C2_stop_all_wavefronts :
    ∀ waves : List Wave, (waves.map Wave.id).Nodup →
      (∀ fuel s', stopAllWavefronts waves fuel = some s' → s'.waiting = [])
      ∧ ∃ fuel s', stopAllWavefronts waves fuel = some s'
        ∧ s'.waiting = []
        ∧ ∀ w ∈ waves,
          (w.beh = WBeh.stopped →
            w.id ∈ s'.alreadyStopped ∧ w.id ∉ s'.requested)
          ∧ (w.beh = WBeh.singleStep →
            w.id ∉ s'.requested ∧ w.id ∉ s'.alreadyStopped)
          ∧ (∀ d, w.beh = WBeh.running d →
            w.id ∈ s'.requested ∧ w.id ∈ s'.alreadyStopped)
          ∧ (∀ d, w.beh = WBeh.dying d →
            w.id ∈ s'.requested ∧ w.id ∉ s'.alreadyStopped)
          ∧ (w.beh = WBeh.dead →
            w.id ∉ s'.requested ∧ w.id ∉ s'.alreadyStopped) := by
  intro waves hnd
  have hfin : ∀ s' : SimSt, Inv waves s' → s'.waiting = [] →
      ∀ w ∈ waves,
        (w.beh = WBeh.stopped →
          w.id ∈ s'.alreadyStopped ∧ w.id ∉ s'.requested)
        ∧ (w.beh = WBeh.singleStep →
          w.id ∉ s'.requested ∧ w.id ∉ s'.alreadyStopped)
        ∧ (∀ d, w.beh = WBeh.running d →
          w.id ∈ s'.requested ∧ w.id ∈ s'.alreadyStopped)
        ∧ (∀ d, w.beh = WBeh.dying d →
          w.id ∈ s'.requested ∧ w.id ∉ s'.alreadyStopped)
        ∧ (w.beh = WBeh.dead →
          w.id ∉ s'.requested ∧ w.id ∉ s'.alreadyStopped) := by
    intro s' hi hw w hwmem
    obtain ⟨hstop, hss, hrun, hdie, hdead⟩ := hi.2.2 w hwmem
    have hwids : waitingIds s' = [] := by
      rw [waitingIds, hw]
      rfl
    refine ⟨hstop, ?_, ?_, ?_, ?_⟩
    · intro hb
      obtain ⟨a, b, c⟩ := hss hb
      exact ⟨c, a⟩
    · intro d hb
      obtain ⟨a, b⟩ := hrun d hb
      rcases b with b | b
      · rw [hwids] at b
        simp at b
      · exact ⟨a, b⟩
    · intro d hb
      obtain ⟨a, b, c⟩ := hdie d hb
      exact ⟨a, c⟩
    · intro hb
      obtain ⟨a, b, c⟩ := hdead hb
      exact ⟨c, a⟩
  refine ⟨fun fuel s' h => stopAllGo_waiting fuel _ s' h, ?_⟩
  have hdr0 : drain waves ⟨[], [], [], []⟩ = ⟨[], [], [], []⟩ :=
    drain_waiting_empty rfl
  have hi₁ : Inv waves (enumerate waves ⟨[], [], [], []⟩) := inv_first waves hnd
  have hiter : stopAllIter waves ⟨[], [], [], []⟩
      = enumerate waves ⟨[], [], [], []⟩ := by
    rw [stopAllIter, hdr0]
  by_cases h₁ : (enumerate waves ⟨[], [], [], []⟩).waiting = []
  · refine ⟨1, enumerate waves ⟨[], [], [], []⟩, ?_, h₁, hfin _ hi₁ h₁⟩
    rw [stopAllWavefronts, stopAllGo, hiter, if_pos h₁]
  · obtain ⟨fuel, s', hgo, hi', hw'⟩ := stopAll_conv hnd
      (waitMeasure (enumerate waves ⟨[], [], [], []⟩))
      (enumerate waves ⟨[], [], [], []⟩) hi₁ (le_refl _)
    refine ⟨fuel + 1, s', ?_, hw', hfin _ hi' hw'⟩
    rw [stopAllWavefronts, stopAllGo, hiter, if_neg h₁]
    exact hgo

/-- Witness for C2: the spec's test environment `{W1 running, W2
single-step, W3 stopped}` converges; W1 and W3 end up stopped, W2 is
neither stop-requested nor considered stopped. -/
theorem C2_stop_all_wavefronts_witness :
    ∃ fuel s', stopAllWavefronts
        [⟨1, WBeh.running 1⟩, ⟨2, WBeh.singleStep⟩, ⟨3, WBeh.stopped⟩] fuel
        = some s'
      ∧ s'.waiting = []
      ∧ ∀ w ∈ ([⟨1, WBeh.running 1⟩, ⟨2, WBeh.singleStep⟩,
          ⟨3, WBeh.stopped⟩] : List Wave),
        (w.beh = WBeh.stopped →
          w.id ∈ s'.alreadyStopped ∧ w.id ∉ s'.requested)
        ∧ (w.beh = WBeh.singleStep →
          w.id ∉ s'.requested ∧ w.id ∉ s'.alreadyStopped)
        ∧ (∀ d, w.beh = WBeh.running d →
          w.id ∈ s'.requested ∧ w.id ∈ s'.alreadyStopped)
        ∧ (∀ d, w.beh = WBeh.dying d →
          w.id ∈ s'.requested ∧ w.id ∉ s'.alreadyStopped)
        ∧ (w.beh = WBeh.dead →
          w.id ∉ s'.requested ∧ w.id ∉ s'.alreadyStopped) :=
  (C2_stop_all_wavefronts
    [⟨1, WBeh.running 1⟩, ⟨2, WBeh.singleStep⟩, ⟨3, WBeh.stopped⟩]
    (by decide)).2



/-! ## `update_code_object_list` and the worker's `'b'` command
(debug_agent.cpp:1217-1246 and 1124-1143)

The one-outstanding synchronous handshake over the pair
`(guard : atomic bool, promise : optional one-shot)` plus the command pipe,
embedded as an interleaved two-thread transition system (the
sequentially-consistent abstraction of the release/acquire pair: the worker
that sees the `'b'` byte also sees the published guard and promise).
Controller program points follow debug_agent.cpp:1217-1246: emplace the
promise, publish `guard := true`, write `'b'`, await the future, reset the
promise, release the guard.  Worker program points follow
debug_agent.cpp:1124-1143: read the byte, call
`amd_dbgapi_report_breakpoint_hit` (counted in `reported`), fulfil the
promise. -/

inductive CtrlPC where
  | idle | stored | published | sent | waited | cleared | returned
deriving DecidableEq, Repr

inductive WorkPC where
  | widle | wgotB | wreported
deriving DecidableEq, Repr

structure ProtoSt where
  ctrl : CtrlPC
  work : WorkPC
  guard : Bool
  promise : Option Bool
  pipe : List Char
  reported : Nat
deriving DecidableEq, Repr

def protoInit : ProtoSt :=
  ⟨CtrlPC.idle, WorkPC.widle, false, none, [], 0⟩

/-- The interleaving semantics: any enabled controller or worker step may
fire.  The preconditions of `store` and `wrecv` are the code's
`agent_assert`s (debug_agent.cpp:1221-1225 and 1133-1136). -/
inductive ProtoStep : ProtoSt → ProtoSt → Prop
  | store {s : ProtoSt} : s.ctrl = CtrlPC.idle → s.guard = false →
      s.promise = none →
      ProtoStep s { s with ctrl := CtrlPC.stored, promise := some false }
  | publish {s : ProtoSt} : s.ctrl = CtrlPC.stored →
      ProtoStep s { s with ctrl := CtrlPC.published, guard := true }
  | send {s : ProtoSt} : s.ctrl = CtrlPC.published →
      ProtoStep s { s with ctrl := CtrlPC.sent, pipe := s.pipe ++ ['b'] }
  | wait {s : ProtoSt} : s.ctrl = CtrlPC.sent → s.promise = some true →
      ProtoStep s { s with ctrl := CtrlPC.waited }
  | clearP {s : ProtoSt} : s.ctrl = CtrlPC.waited →
      ProtoStep s { s with ctrl := CtrlPC.cleared, promise := none }
  | unguard {s : ProtoSt} : s.ctrl = CtrlPC.cleared →
      ProtoStep s { s with ctrl := CtrlPC.returned, guard := false }
  | wrecv {s : ProtoSt} {rest : List Char} : s.work = WorkPC.widle →
      s.pipe = 'b' :: rest → s.guard = true → s.promise.isSome →
      ProtoStep s { s with work := WorkPC.wgotB, pipe := rest }
  | wreport {s : ProtoSt} : s.work = WorkPC.wgotB →
      ProtoStep s
        { s with work := WorkPC.wreported, reported := s.reported + 1 }
  | wfulfill {s : ProtoSt} {b : Bool} : s.work = WorkPC.wreported →
      s.promise = some b →
      ProtoStep s { s with work := WorkPC.widle, promise := some true }

/-- Inductive invariant: a fulfilled promise (and hence a completed wait)
is preceded by a `report_breakpoint_hit`; the promise slot and the guard
are clean again once the call returns; the guard and promise are published
while the command is in flight. -/
def ProtoInv (s : ProtoSt) : Prop :=
  (s.work = WorkPC.wreported → 1 ≤ s.reported)
  ∧ (s.promise = some true → 1 ≤ s.reported)
  ∧ ((s.ctrl = CtrlPC.waited ∨ s.ctrl = CtrlPC.cleared
      ∨ s.ctrl = CtrlPC.returned) → 1 ≤ s.reported)
  ∧ (s.ctrl = CtrlPC.cleared → s.promise = none)
  ∧ (s.ctrl = CtrlPC.returned → s.promise = none ∧ s.guard = false)
  ∧ (s.ctrl = CtrlPC.stored → s.promise.isSome)
  ∧ ((s.ctrl = CtrlPC.published ∨ s.ctrl = CtrlPC.sent) →
      s.guard = true ∧ s.promise.isSome)

theorem protoInv_init : ProtoInv protoInit := by
  refine ⟨?_, ?_, ?_, ?_, ?_, ?_, ?_⟩ <;> intro h <;> simp [protoInit] at h

theorem protoInv_step {s s' : ProtoSt} (hi : ProtoInv s)
    (hstep : ProtoStep s s') : ProtoInv s' := by
  obtain ⟨i1, i2, i3, i4, i5, i6, i7⟩ := hi
  cases hstep <;>
    refine ⟨?_, ?_, ?_, ?_, ?_, ?_, ?_⟩ <;> intro h <;> simp_all



def protoReach (s : ProtoSt) : Prop :=
  Relation.ReflTransGen ProtoStep protoInit s

theorem protoInv_reach {s : ProtoSt} (h : protoReach s) : ProtoInv s := by
  induction h with
  | refl => exact protoInv_init
  | tail _ hstep ih => exact protoInv_step ih hstep

/-- Claim C9: `update_code_object_list` stores a fresh promise, publishes
`guard = true` (visible, with the promise, whenever the `'b'` byte is in
flight), writes `'b'`, and in every interleaving returns only after the
worker has invoked `report_breakpoint_hit` and fulfilled the promise; on
return the promise slot is empty and the guard is false. -/
theorem C9_update_code_object_list :
    ∀ s : ProtoSt, protoReach s →
      (s.ctrl = CtrlPC.returned →
        1 ≤ s.reported ∧ s.promise = none ∧ s.guard = false)
      ∧ ((s.ctrl = CtrlPC.published ∨ s.ctrl = CtrlPC.sent) →
        s.guard = true ∧ s.promise.isSome = true) := by
  intro s h
  obtain ⟨_, _, i3, _, i5, _, i7⟩ := protoInv_reach h
  exact ⟨fun hc => ⟨i3 (Or.inr (Or.inr hc)), (i5 hc).1, (i5 hc).2⟩, i7⟩

/-- An explicit complete execution of the handshake, ending returned with
one breakpoint hit reported. -/
theorem protoTrace :
    protoReach ⟨CtrlPC.returned, WorkPC.widle, false, none, [], 1⟩ := by
  have t0 : protoReach protoInit := Relation.ReflTransGen.refl
  have t1 := Relation.ReflTransGen.tail t0 (ProtoStep.store rfl rfl rfl)
  have t2 := Relation.ReflTransGen.tail t1 (ProtoStep.publish rfl)
  have t3 := Relation.ReflTransGen.tail t2 (ProtoStep.send rfl)
  have t4 := Relation.ReflTransGen.tail t3 (ProtoStep.wrecv rfl rfl rfl rfl)
  have t5 := Relation.ReflTransGen.tail t4 (ProtoStep.wreport rfl)
  have t6 := Relation.ReflTransGen.tail t5 (ProtoStep.wfulfill rfl rfl)
  have t7 := Relation.ReflTransGen.tail t6 (ProtoStep.wait rfl rfl)
  have t8 := Relation.ReflTransGen.tail t7 (ProtoStep.clearP rfl)
  have t9 := Relation.ReflTransGen.tail t8 (ProtoStep.unguard rfl)
  exact t9

/-- Witness for C9: the protocol theorem applied to the explicit complete
execution. -/
theorem C9_update_code_object_list_witness :
    1 ≤ (⟨CtrlPC.returned, WorkPC.widle, false, none, [], 1⟩
        : ProtoSt).reported
    ∧ (⟨CtrlPC.returned, WorkPC.widle, false, none, [], 1⟩
        : ProtoSt).promise = none
    ∧ (⟨CtrlPC.returned, WorkPC.widle, false, none, [], 1⟩
        : ProtoSt).guard = false :=
  (C9_update_code_object_list _ protoTrace).1 rfl


end RocrDebugAgent
